import Mathlib

/-!
Verification of the `ordered_iter` library (merge joins over ordered
iterators).

An iterator over a map-like structure (`OrderedMapIterator`) is embedded as a
`List (K × V)`; an iterator over a set-like structure (`OrderedSetIterator`)
as a `List K`.  Pulling `next()` from an iterator is taking the head of the
list; the tail is the iterator's remaining state.  A `Peekable` iterator is
also a list: `peek()` is `head?`, which does not consume.

Each adaptor's `next` method from `src/lib.rs` is translated directly:
the initial pulls and the `loop { match key_a.cmp(&key_b) ... }` body become
recursive functions on the remaining lists, returning the emitted item and
the remaining state.  `Run` functions produce the adaptor's whole output
sequence, and theorems connect each `Run` to its `next` step function.
-/

/-- Strictly ascending list: the ordering contract of the library
(keys are strictly increasing between successive outputs). -/
abbrev StrictAsc {K : Type} [LT K] (l : List K) : Prop :=
  List.Pairwise (· < ·) l

/-- The key sequence of a map iterator. -/
def keysOf {K V : Type} (l : List (K × V)) : List K :=
  l.map Prod.fst

/-! ### InnerJoinMap (`impl Iterator for InnerJoinMap`, src/lib.rs lines 99-141) -/

/-- The `loop` body of `InnerJoinMap::next`: `pa`/`pb` are the current
`(key_a, data_a)` / `(key_b, data_b)`, `ta`/`tb` the not-yet-pulled rest of
`self.a` / `self.b`.  `Less` pulls from `a` (returning `none` when `a` is
exhausted), `Greater` pulls from `b`, `Equal` emits
`(key_a, (data_a, data_b))` together with the remaining state. -/
def innerJoinMapLoop {K V1 V2 : Type} [LinearOrder K]
    (pa : K × V1) (pb : K × V2) (ta : List (K × V1)) (tb : List (K × V2)) :
    Option ((K × (V1 × V2)) × List (K × V1) × List (K × V2)) :=
  match compare pa.1 pb.1 with
  | .lt =>
    match ta with
    | [] => none
    | pa' :: ta' => innerJoinMapLoop pa' pb ta' tb
  | .eq => some ((pa.1, (pa.2, pb.2)), ta, tb)
  | .gt =>
    match tb with
    | [] => none
    | pb' :: tb' => innerJoinMapLoop pa pb' ta tb'
termination_by ta.length + tb.length

/-- `InnerJoinMap::next`: pull the first element of each side (returning
`none` if either is exhausted), then enter the loop. -/
def innerJoinMapNext {K V1 V2 : Type} [LinearOrder K]
    (a : List (K × V1)) (b : List (K × V2)) :
    Option ((K × (V1 × V2)) × List (K × V1) × List (K × V2)) :=
  match a with
  | [] => none
  | pa :: ta =>
    match b with
    | [] => none
    | pb :: tb => innerJoinMapLoop pa pb ta tb

/-- The full output sequence of `InnerJoinMap`: the merge recursion obtained
by unfolding repeated `next` calls (see `innerJoinMapRun_eq_next`). -/
def innerJoinMapRun {K V1 V2 : Type} [LinearOrder K] :
    List (K × V1) → List (K × V2) → List (K × (V1 × V2))
  | [], _ => []
  | _ :: _, [] => []
  | (ka, da) :: ta, (kb, db) :: tb =>
    match compare ka kb with
    | .lt => innerJoinMapRun ta ((kb, db) :: tb)
    | .eq => (ka, (da, db)) :: innerJoinMapRun ta tb
    | .gt => innerJoinMapRun ((ka, da) :: ta) tb
termination_by a b => a.length + b.length

/-! ### InnerJoinSet (`impl Iterator for InnerJoinSet`, src/lib.rs lines 145-182) -/

/-- The `loop` body of `InnerJoinSet::next`. -/
def innerJoinSetLoop {K : Type} [LinearOrder K] :
    K → K → List K → List K → Option (K × List K × List K)
  | ka, kb, ta, tb =>
    match compare ka kb with
    | .lt =>
      match ta with
      | [] => none
      | k :: ta' => innerJoinSetLoop k kb ta' tb
    | .eq => some (ka, ta, tb)
    | .gt =>
      match tb with
      | [] => none
      | k :: tb' => innerJoinSetLoop ka k ta tb'
termination_by _ _ ta tb => ta.length + tb.length

/-- `InnerJoinSet::next`. -/
def innerJoinSetNext {K : Type} [LinearOrder K] (a b : List K) :
    Option (K × List K × List K) :=
  match a with
  | [] => none
  | ka :: ta =>
    match b with
    | [] => none
    | kb :: tb => innerJoinSetLoop ka kb ta tb

/-- The full output sequence of `InnerJoinSet`. -/
def innerJoinSetRun {K : Type} [LinearOrder K] : List K → List K → List K
  | [], _ => []
  | _ :: _, [] => []
  | ka :: ta, kb :: tb =>
    match compare ka kb with
    | .lt => innerJoinSetRun ta (kb :: tb)
    | .eq => ka :: innerJoinSetRun ta tb
    | .gt => innerJoinSetRun (ka :: ta) tb
termination_by a b => a.length + b.length

/-! ### InnerJoinMapSet (`impl Iterator for InnerJoinMapSet`, src/lib.rs lines 184-224) -/

/-- The `loop` body of `InnerJoinMapSet::next`: `ks` is the current set key,
`(km, d)` the current map entry; the comparison is `key_set.cmp(&key_map)`,
`Less` advances the set, `Greater` the map, `Equal` emits `(key_set, data)`. -/
def innerJoinMapSetLoop {K V : Type} [LinearOrder K]
    (ks : K) (pm : K × V) (ts : List K) (tm : List (K × V)) :
    Option ((K × V) × List (K × V) × List K) :=
  match compare ks pm.1 with
  | .lt =>
    match ts with
    | [] => none
    | k :: ts' => innerJoinMapSetLoop k pm ts' tm
  | .eq => some ((ks, pm.2), tm, ts)
  | .gt =>
    match tm with
    | [] => none
    | pm' :: tm' => innerJoinMapSetLoop ks pm' ts tm'
termination_by ts.length + tm.length

/-- `InnerJoinMapSet::next`: the set side is pulled first, then the map
side; the returned state is (remaining map, remaining set), matching the
struct's `{map, set}` fields. -/
def innerJoinMapSetNext {K V : Type} [LinearOrder K]
    (m : List (K × V)) (s : List K) :
    Option ((K × V) × List (K × V) × List K) :=
  match s with
  | [] => none
  | ks :: ts =>
    match m with
    | [] => none
    | pm :: tm => innerJoinMapSetLoop ks pm ts tm

/-- The full output sequence of `InnerJoinMapSet` (map side first argument,
set side second, matching the struct's `{map, set}` fields). -/
def innerJoinMapSetRun {K V : Type} [LinearOrder K] :
    List (K × V) → List K → List (K × V)
  | _, [] => []
  | [], _ :: _ => []
  | (km, d) :: tm, ks :: ts =>
    match compare ks km with
    | .lt => innerJoinMapSetRun ((km, d) :: tm) ts
    | .eq => (ks, d) :: innerJoinMapSetRun tm ts
    | .gt => innerJoinMapSetRun tm (ks :: ts)
termination_by m s => m.length + s.length

/-! ### OuterJoin (`impl Iterator for OuterJoin`, src/lib.rs lines 226-260) -/

/-- `Iterator::next` on a list-embedded iterator, with the
`.expect("no value found")` of `OuterJoin::next` made explicit: an
exhausted iterator makes the `expect` produce the panic message. -/
def consumeNext {α : Type} : List α → Except String (α × List α)
  | [] => Except.error "no value found"
  | x :: t => Except.ok (x, t)

/-- The `which` comparison of `OuterJoin::next`: peek both sides
(`head?`, non-consuming); with both present the result is
`key_right.cmp(&key_left)`; `none` means both sides exhausted. -/
def outerJoinWhich {K V1 V2 : Type} [LinearOrder K]
    (left : List (K × V1)) (right : List (K × V2)) : Option Ordering :=
  match left.head?, right.head? with
  | some (ka, _), some (kb, _) => some (compare kb ka)
  | none, some _ => some Ordering.lt
  | some _, none => some Ordering.gt
  | none, none => none

/-- `OuterJoin::next`: decide `which` from the peeks, then consume via
`next().expect(...)` (modelled by `consumeNext`, so a failing `expect`
surfaces as `Except.error`). -/
def outerJoinNext {K V1 V2 : Type} [LinearOrder K]
    (left : List (K × V1)) (right : List (K × V2)) :
    Except String
      (Option ((K × (Option V1 × Option V2)) × List (K × V1) × List (K × V2))) :=
  match outerJoinWhich left right with
  | none => Except.ok none
  | some Ordering.eq => do
    let (pa, left') ← consumeNext left
    let (pb, right') ← consumeNext right
    Except.ok (some ((pa.1, (some pa.2, some pb.2)), left', right'))
  | some Ordering.lt => do
    let (pb, right') ← consumeNext right
    Except.ok (some ((pb.1, (none, some pb.2)), left, right'))
  | some Ordering.gt => do
    let (pa, left') ← consumeNext left
    Except.ok (some ((pa.1, (some pa.2, none)), left', right))

/-- The full output sequence of `OuterJoin` (see `outerJoinRun_eq_next`). -/
def outerJoinRun {K V1 V2 : Type} [LinearOrder K] :
    List (K × V1) → List (K × V2) → List (K × (Option V1 × Option V2))
  | [], [] => []
  | [], (kb, vb) :: tb => (kb, (none, some vb)) :: outerJoinRun [] tb
  | (ka, va) :: ta, [] => (ka, (some va, none)) :: outerJoinRun ta []
  | (ka, va) :: ta, (kb, vb) :: tb =>
    match compare kb ka with
    | .eq => (ka, (some va, some vb)) :: outerJoinRun ta tb
    | .lt => (kb, (none, some vb)) :: outerJoinRun ((ka, va) :: ta) tb
    | .gt => (ka, (some va, none)) :: outerJoinRun ta ((kb, vb) :: tb)
termination_by l r => l.length + r.length

/-! ### Combinator entry points (trait methods, src/lib.rs lines 19-79) -/

/-- The `InnerJoinMapSet` adaptor struct: `{map, set}` fields
(src/lib.rs line 84). -/
structure InnerJoinMapSet (K V : Type) : Type where
  map : List (K × V)
  set : List K

/-- Output sequence of an `InnerJoinMapSet` adaptor. -/
def InnerJoinMapSet.run {K V : Type} [LinearOrder K]
    (j : InnerJoinMapSet K V) : List (K × V) :=
  innerJoinMapSetRun j.map j.set

/-- `OrderedMapIterator::inner_join_set` (src/lib.rs lines 32-38): the
receiver is the map side. -/
def OrderedMapIterator.inner_join_set {K V : Type}
    (m : List (K × V)) (s : List K) : InnerJoinMapSet K V :=
  { map := m, set := s }

/-- `OrderedSetIterator::inner_join_map` (src/lib.rs lines 63-69): the
receiver is the set side, the argument the map side. -/
def OrderedSetIterator.inner_join_map {K V : Type}
    (s : List K) (m : List (K × V)) : InnerJoinMapSet K V :=
  { map := m, set := s }

/-! ### Concrete inputs from the spec's scenarios -/

/-- Map A of the spec's inner-join-map scenario: `{2:1,4:2,...,18:9}`. -/
def exampleMapA : List (Nat × Nat) :=
  [(2, 1), (4, 2), (6, 3), (8, 4), (10, 5), (12, 6), (14, 7), (16, 8), (18, 9)]

/-- Map B of the spec's inner-join-map scenario: `{3:1,6:2,...,27:9}`. -/
def exampleMapB : List (Nat × Nat) :=
  [(3, 1), (6, 2), (9, 3), (12, 4), (15, 5), (18, 6), (21, 7), (24, 8), (27, 9)]

/-- The positive multiples of `k` below `n`, in ascending order. -/
def multiplesUnder (k n : Nat) : List Nat :=
  (List.range n).filter (fun i => decide (0 < i) && decide (i % k = 0))

/-! ### Basic helpers -/

theorem keysOf_nil {K V : Type} : keysOf ([] : List (K × V)) = [] := rfl

theorem keysOf_cons {K V : Type} (p : K × V) (l : List (K × V)) :
    keysOf (p :: l) = p.1 :: keysOf l := rfl

theorem mem_keysOf_of_mem {K V : Type} {k : K} {v : V} {l : List (K × V)}
    (h : (k, v) ∈ l) : k ∈ keysOf l :=
  List.mem_map.mpr ⟨(k, v), h, rfl⟩

theorem fst_mem_keysOf {K V : Type} {p : K × V} {l : List (K × V)}
    (h : p ∈ l) : p.1 ∈ keysOf l :=
  List.mem_map.mpr ⟨p, h, rfl⟩

theorem strictAsc_cons_lt {K : Type} [LinearOrder K] {x y : K} {l : List K}
    (h : StrictAsc (x :: l)) (hy : y ∈ l) : x < y :=
  (List.pairwise_cons.mp h).1 y hy

/-! ### Branch unfolding lemmas for the loop bodies -/

theorem innerJoinMapLoop_lt {K V1 V2 : Type} [LinearOrder K]
    {pa : K × V1} {pb : K × V2} (h : compare pa.1 pb.1 = Ordering.lt)
    (ta : List (K × V1)) (tb : List (K × V2)) :
    innerJoinMapLoop pa pb ta tb =
      match ta with
      | [] => none
      | pa' :: ta' => innerJoinMapLoop pa' pb ta' tb := by
  cases ta <;> cases tb <;> simp [innerJoinMapLoop, h]

theorem innerJoinMapLoop_eq {K V1 V2 : Type} [LinearOrder K]
    {pa : K × V1} {pb : K × V2} (h : compare pa.1 pb.1 = Ordering.eq)
    (ta : List (K × V1)) (tb : List (K × V2)) :
    innerJoinMapLoop pa pb ta tb =
      some ((pa.1, (pa.2, pb.2)), ta, tb) := by
  cases ta <;> cases tb <;> simp [innerJoinMapLoop, h]

theorem innerJoinMapLoop_gt {K V1 V2 : Type} [LinearOrder K]
    {pa : K × V1} {pb : K × V2} (h : compare pa.1 pb.1 = Ordering.gt)
    (ta : List (K × V1)) (tb : List (K × V2)) :
    innerJoinMapLoop pa pb ta tb =
      match tb with
      | [] => none
      | pb' :: tb' => innerJoinMapLoop pa pb' ta tb' := by
  cases ta <;> cases tb <;> simp [innerJoinMapLoop, h]

theorem innerJoinSetLoop_lt {K : Type} [LinearOrder K]
    {ka kb : K} (h : compare ka kb = Ordering.lt) (ta tb : List K) :
    innerJoinSetLoop ka kb ta tb =
      match ta with
      | [] => none
      | k :: ta' => innerJoinSetLoop k kb ta' tb := by
  cases ta <;> cases tb <;> simp [innerJoinSetLoop, h]

theorem innerJoinSetLoop_eq {K : Type} [LinearOrder K]
    {ka kb : K} (h : compare ka kb = Ordering.eq) (ta tb : List K) :
    innerJoinSetLoop ka kb ta tb = some (ka, ta, tb) := by
  cases ta <;> cases tb <;> simp [innerJoinSetLoop, h]

theorem innerJoinSetLoop_gt {K : Type} [LinearOrder K]
    {ka kb : K} (h : compare ka kb = Ordering.gt) (ta tb : List K) :
    innerJoinSetLoop ka kb ta tb =
      match tb with
      | [] => none
      | k :: tb' => innerJoinSetLoop ka k ta tb' := by
  cases ta <;> cases tb <;> simp [innerJoinSetLoop, h]

theorem innerJoinMapSetLoop_lt {K V : Type} [LinearOrder K]
    {ks : K} {pm : K × V} (h : compare ks pm.1 = Ordering.lt)
    (ts : List K) (tm : List (K × V)) :
    innerJoinMapSetLoop ks pm ts tm =
      match ts with
      | [] => none
      | k :: ts' => innerJoinMapSetLoop k pm ts' tm := by
  cases ts <;> cases tm <;> simp [innerJoinMapSetLoop, h]

theorem innerJoinMapSetLoop_eq {K V : Type} [LinearOrder K]
    {ks : K} {pm : K × V} (h : compare ks pm.1 = Ordering.eq)
    (ts : List K) (tm : List (K × V)) :
    innerJoinMapSetLoop ks pm ts tm = some ((ks, pm.2), tm, ts) := by
  cases ts <;> cases tm <;> simp [innerJoinMapSetLoop, h]

theorem innerJoinMapSetLoop_gt {K V : Type} [LinearOrder K]
    {ks : K} {pm : K × V} (h : compare ks pm.1 = Ordering.gt)
    (ts : List K) (tm : List (K × V)) :
    innerJoinMapSetLoop ks pm ts tm =
      match tm with
      | [] => none
      | pm' :: tm' => innerJoinMapSetLoop ks pm' ts tm' := by
  cases ts <;> cases tm <;> simp [innerJoinMapSetLoop, h]

/-! ### Each `Run` function is the unfolding of repeated `next` calls -/

theorem innerJoinMapRun_nil_left {K V1 V2 : Type} [LinearOrder K]
    (b : List (K × V2)) : innerJoinMapRun ([] : List (K × V1)) b = [] := by
  cases b <;> simp [innerJoinMapRun]

theorem innerJoinMapRun_nil_right {K V1 V2 : Type} [LinearOrder K]
    (pa : K × V1) (ta : List (K × V1)) :
    innerJoinMapRun (pa :: ta) ([] : List (K × V2)) = [] := by
  simp [innerJoinMapRun]

theorem innerJoinMapRun_cons_lt {K V1 V2 : Type} [LinearOrder K]
    {pa : K × V1} {pb : K × V2} (h : compare pa.1 pb.1 = Ordering.lt)
    (ta : List (K × V1)) (tb : List (K × V2)) :
    innerJoinMapRun (pa :: ta) (pb :: tb) = innerJoinMapRun ta (pb :: tb) := by
  obtain ⟨ka, da⟩ := pa
  obtain ⟨kb, db⟩ := pb
  have h' : compare ka kb = Ordering.lt := h
  simp [innerJoinMapRun, h']

theorem innerJoinMapRun_cons_eq {K V1 V2 : Type} [LinearOrder K]
    {pa : K × V1} {pb : K × V2} (h : compare pa.1 pb.1 = Ordering.eq)
    (ta : List (K × V1)) (tb : List (K × V2)) :
    innerJoinMapRun (pa :: ta) (pb :: tb) =
      (pa.1, (pa.2, pb.2)) :: innerJoinMapRun ta tb := by
  obtain ⟨ka, da⟩ := pa
  obtain ⟨kb, db⟩ := pb
  have h' : compare ka kb = Ordering.eq := h
  simp [innerJoinMapRun, h']

theorem innerJoinMapRun_cons_gt {K V1 V2 : Type} [LinearOrder K]
    {pa : K × V1} {pb : K × V2} (h : compare pa.1 pb.1 = Ordering.gt)
    (ta : List (K × V1)) (tb : List (K × V2)) :
    innerJoinMapRun (pa :: ta) (pb :: tb) = innerJoinMapRun (pa :: ta) tb := by
  obtain ⟨ka, da⟩ := pa
  obtain ⟨kb, db⟩ := pb
  have h' : compare ka kb = Ordering.gt := h
  simp [innerJoinMapRun, h']

/-- Unfolding `InnerJoinMap`: once the loop is entered with currents
`pa`, `pb`, the whole remaining output is the loop's emission followed by
the run of the returned state. -/
theorem innerJoinMapRun_eq_loop {K V1 V2 : Type} [LinearOrder K]
    (pa : K × V1) (pb : K × V2) (ta : List (K × V1)) (tb : List (K × V2)) :
    innerJoinMapRun (pa :: ta) (pb :: tb) =
      match innerJoinMapLoop pa pb ta tb with
      | none => []
      | some (x, st) => x :: innerJoinMapRun st.1 st.2 := by
  induction pa, pb, ta, tb using innerJoinMapLoop.induct with
  | case1 pa pb tb h =>
    rw [innerJoinMapLoop_lt h, innerJoinMapRun_cons_lt h, innerJoinMapRun_nil_left]
  | case2 pa pb tb h pa' ta' ih =>
    rw [innerJoinMapLoop_lt h, innerJoinMapRun_cons_lt h]
    exact ih
  | case3 pa pb ta tb h =>
    rw [innerJoinMapLoop_eq h, innerJoinMapRun_cons_eq h]
  | case4 pa pb ta h =>
    rw [innerJoinMapLoop_gt h, innerJoinMapRun_cons_gt h, innerJoinMapRun_nil_right]
  | case5 pa pb ta h pb' tb' ih =>
    rw [innerJoinMapLoop_gt h, innerJoinMapRun_cons_gt h]
    exact ih

/-- The output sequence of `InnerJoinMap` is produced by iterating its
`next` method. -/
theorem innerJoinMapRun_eq_next {K V1 V2 : Type} [LinearOrder K]
    (a : List (K × V1)) (b : List (K × V2)) :
    innerJoinMapRun a b =
      match innerJoinMapNext a b with
      | none => []
      | some (x, st) => x :: innerJoinMapRun st.1 st.2 := by
  match a, b with
  | [], b => simp [innerJoinMapRun_nil_left, innerJoinMapNext]
  | pa :: ta, [] => simp [innerJoinMapRun_nil_right, innerJoinMapNext]
  | pa :: ta, pb :: tb =>
    simpa [innerJoinMapNext] using innerJoinMapRun_eq_loop pa pb ta tb

theorem innerJoinSetRun_nil_left {K : Type} [LinearOrder K]
    (b : List K) : innerJoinSetRun ([] : List K) b = [] := by
  cases b <;> simp [innerJoinSetRun]

theorem innerJoinSetRun_nil_right {K : Type} [LinearOrder K]
    (ka : K) (ta : List K) : innerJoinSetRun (ka :: ta) ([] : List K) = [] := by
  simp [innerJoinSetRun]

theorem innerJoinSetRun_cons_lt {K : Type} [LinearOrder K]
    {ka kb : K} (h : compare ka kb = Ordering.lt) (ta tb : List K) :
    innerJoinSetRun (ka :: ta) (kb :: tb) = innerJoinSetRun ta (kb :: tb) := by
  simp [innerJoinSetRun, h]

theorem innerJoinSetRun_cons_eq {K : Type} [LinearOrder K]
    {ka kb : K} (h : compare ka kb = Ordering.eq) (ta tb : List K) :
    innerJoinSetRun (ka :: ta) (kb :: tb) = ka :: innerJoinSetRun ta tb := by
  simp [innerJoinSetRun, h]

theorem innerJoinSetRun_cons_gt {K : Type} [LinearOrder K]
    {ka kb : K} (h : compare ka kb = Ordering.gt) (ta tb : List K) :
    innerJoinSetRun (ka :: ta) (kb :: tb) = innerJoinSetRun (ka :: ta) tb := by
  simp [innerJoinSetRun, h]

/-- Unfolding `InnerJoinSet`: the loop determines the remaining output. -/
theorem innerJoinSetRun_eq_loop {K : Type} [LinearOrder K]
    (ka kb : K) (ta tb : List K) :
    innerJoinSetRun (ka :: ta) (kb :: tb) =
      match innerJoinSetLoop ka kb ta tb with
      | none => []
      | some (x, st) => x :: innerJoinSetRun st.1 st.2 := by
  induction ka, kb, ta, tb using innerJoinSetLoop.induct with
  | case1 ka kb tb h =>
    rw [innerJoinSetLoop_lt h, innerJoinSetRun_cons_lt h, innerJoinSetRun_nil_left]
  | case2 ka kb tb h k ta' ih =>
    rw [innerJoinSetLoop_lt h, innerJoinSetRun_cons_lt h]
    exact ih
  | case3 ka kb ta tb h =>
    rw [innerJoinSetLoop_eq h, innerJoinSetRun_cons_eq h]
  | case4 ka kb ta h =>
    rw [innerJoinSetLoop_gt h, innerJoinSetRun_cons_gt h, innerJoinSetRun_nil_right]
  | case5 ka kb ta h k tb' ih =>
    rw [innerJoinSetLoop_gt h, innerJoinSetRun_cons_gt h]
    exact ih

/-- The output sequence of `InnerJoinSet` is produced by iterating its
`next` method. -/
theorem innerJoinSetRun_eq_next {K : Type} [LinearOrder K] (a b : List K) :
    innerJoinSetRun a b =
      match innerJoinSetNext a b with
      | none => []
      | some (x, st) => x :: innerJoinSetRun st.1 st.2 := by
  match a, b with
  | [], b => simp [innerJoinSetRun_nil_left, innerJoinSetNext]
  | ka :: ta, [] => simp [innerJoinSetRun_nil_right, innerJoinSetNext]
  | ka :: ta, kb :: tb =>
    simpa [innerJoinSetNext] using innerJoinSetRun_eq_loop ka kb ta tb

theorem innerJoinMapSetRun_nil_set {K V : Type} [LinearOrder K]
    (m : List (K × V)) : innerJoinMapSetRun m ([] : List K) = [] := by
  cases m <;> simp [innerJoinMapSetRun]

theorem innerJoinMapSetRun_nil_map {K V : Type} [LinearOrder K]
    (ks : K) (ts : List K) :
    innerJoinMapSetRun ([] : List (K × V)) (ks :: ts) = [] := by
  simp [innerJoinMapSetRun]

theorem innerJoinMapSetRun_cons_lt {K V : Type} [LinearOrder K]
    {ks : K} {pm : K × V} (h : compare ks pm.1 = Ordering.lt)
    (tm : List (K × V)) (ts : List K) :
    innerJoinMapSetRun (pm :: tm) (ks :: ts) = innerJoinMapSetRun (pm :: tm) ts := by
  obtain ⟨km, d⟩ := pm
  have h' : compare ks km = Ordering.lt := h
  simp [innerJoinMapSetRun, h']

theorem innerJoinMapSetRun_cons_eq {K V : Type} [LinearOrder K]
    {ks : K} {pm : K × V} (h : compare ks pm.1 = Ordering.eq)
    (tm : List (K × V)) (ts : List K) :
    innerJoinMapSetRun (pm :: tm) (ks :: ts) =
      (ks, pm.2) :: innerJoinMapSetRun tm ts := by
  obtain ⟨km, d⟩ := pm
  have h' : compare ks km = Ordering.eq := h
  simp [innerJoinMapSetRun, h']

theorem innerJoinMapSetRun_cons_gt {K V : Type} [LinearOrder K]
    {ks : K} {pm : K × V} (h : compare ks pm.1 = Ordering.gt)
    (tm : List (K × V)) (ts : List K) :
    innerJoinMapSetRun (pm :: tm) (ks :: ts) = innerJoinMapSetRun tm (ks :: ts) := by
  obtain ⟨km, d⟩ := pm
  have h' : compare ks km = Ordering.gt := h
  simp [innerJoinMapSetRun, h']

/-- Unfolding `InnerJoinMapSet`: the loop determines the remaining output. -/
theorem innerJoinMapSetRun_eq_loop {K V : Type} [LinearOrder K]
    (ks : K) (pm : K × V) (ts : List K) (tm : List (K × V)) :
    innerJoinMapSetRun (pm :: tm) (ks :: ts) =
      match innerJoinMapSetLoop ks pm ts tm with
      | none => []
      | some (x, st) => x :: innerJoinMapSetRun st.1 st.2 := by
  induction ks, pm, ts, tm using innerJoinMapSetLoop.induct with
  | case1 ks pm tm h =>
    rw [innerJoinMapSetLoop_lt h, innerJoinMapSetRun_cons_lt h,
      innerJoinMapSetRun_nil_set]
  | case2 ks pm tm h k ts' ih =>
    rw [innerJoinMapSetLoop_lt h, innerJoinMapSetRun_cons_lt h]
    exact ih
  | case3 ks pm ts tm h =>
    rw [innerJoinMapSetLoop_eq h, innerJoinMapSetRun_cons_eq h]
  | case4 ks pm ts h =>
    rw [innerJoinMapSetLoop_gt h, innerJoinMapSetRun_cons_gt h,
      innerJoinMapSetRun_nil_map]
  | case5 ks pm ts h pm' tm' ih =>
    rw [innerJoinMapSetLoop_gt h, innerJoinMapSetRun_cons_gt h]
    exact ih

/-- The output sequence of `InnerJoinMapSet` is produced by iterating its
`next` method. -/
theorem innerJoinMapSetRun_eq_next {K V : Type} [LinearOrder K]
    (m : List (K × V)) (s : List K) :
    innerJoinMapSetRun m s =
      match innerJoinMapSetNext m s with
      | none => []
      | some (x, st) => x :: innerJoinMapSetRun st.1 st.2 := by
  match m, s with
  | m, [] => simp [innerJoinMapSetRun_nil_set, innerJoinMapSetNext]
  | [], ks :: ts => simp [innerJoinMapSetRun_nil_map, innerJoinMapSetNext]
  | pm :: tm, ks :: ts =>
    simpa [innerJoinMapSetNext] using innerJoinMapSetRun_eq_loop ks pm ts tm

theorem outerJoinRun_nil_nil {K V1 V2 : Type} [LinearOrder K] :
    outerJoinRun ([] : List (K × V1)) ([] : List (K × V2)) = [] := by
  simp [outerJoinRun]

theorem outerJoinRun_nil_left {K V1 V2 : Type} [LinearOrder K]
    (pb : K × V2) (tb : List (K × V2)) :
    outerJoinRun ([] : List (K × V1)) (pb :: tb) =
      (pb.1, (none, some pb.2)) :: outerJoinRun [] tb := by
  obtain ⟨kb, vb⟩ := pb
  simp [outerJoinRun]

theorem outerJoinRun_nil_right {K V1 V2 : Type} [LinearOrder K]
    (pa : K × V1) (ta : List (K × V1)) :
    outerJoinRun (pa :: ta) ([] : List (K × V2)) =
      (pa.1, (some pa.2, none)) :: outerJoinRun ta [] := by
  obtain ⟨ka, va⟩ := pa
  simp [outerJoinRun]

theorem outerJoinRun_cons_eq {K V1 V2 : Type} [LinearOrder K]
    {pa : K × V1} {pb : K × V2} (h : compare pb.1 pa.1 = Ordering.eq)
    (ta : List (K × V1)) (tb : List (K × V2)) :
    outerJoinRun (pa :: ta) (pb :: tb) =
      (pa.1, (some pa.2, some pb.2)) :: outerJoinRun ta tb := by
  obtain ⟨ka, va⟩ := pa
  obtain ⟨kb, vb⟩ := pb
  have h' : compare kb ka = Ordering.eq := h
  simp [outerJoinRun, h']

theorem outerJoinRun_cons_lt {K V1 V2 : Type} [LinearOrder K]
    {pa : K × V1} {pb : K × V2} (h : compare pb.1 pa.1 = Ordering.lt)
    (ta : List (K × V1)) (tb : List (K × V2)) :
    outerJoinRun (pa :: ta) (pb :: tb) =
      (pb.1, (none, some pb.2)) :: outerJoinRun (pa :: ta) tb := by
  obtain ⟨ka, va⟩ := pa
  obtain ⟨kb, vb⟩ := pb
  have h' : compare kb ka = Ordering.lt := h
  simp [outerJoinRun, h']

theorem outerJoinRun_cons_gt {K V1 V2 : Type} [LinearOrder K]
    {pa : K × V1} {pb : K × V2} (h : compare pb.1 pa.1 = Ordering.gt)
    (ta : List (K × V1)) (tb : List (K × V2)) :
    outerJoinRun (pa :: ta) (pb :: tb) =
      (pa.1, (some pa.2, none)) :: outerJoinRun ta (pb :: tb) := by
  obtain ⟨ka, va⟩ := pa
  obtain ⟨kb, vb⟩ := pb
  have h' : compare kb ka = Ordering.gt := h
  simp [outerJoinRun, h']

/-- The output sequence of `OuterJoin` is produced by iterating its `next`
method (which, by `outerJoinNext_ok`, never reaches the panic branch). -/
theorem outerJoinRun_eq_next {K V1 V2 : Type} [LinearOrder K]
    (l : List (K × V1)) (r : List (K × V2)) :
    outerJoinRun l r =
      match outerJoinNext l r with
      | Except.error _ => []
      | Except.ok none => []
      | Except.ok (some (x, st)) => x :: outerJoinRun st.1 st.2 := by
  match l, r with
  | [], [] => simp [outerJoinRun_nil_nil, outerJoinNext, outerJoinWhich]
  | [], pb :: tb =>
    simp [outerJoinRun_nil_left, outerJoinNext, outerJoinWhich, consumeNext,
      Bind.bind, Except.bind]
  | pa :: ta, [] =>
    simp [outerJoinRun_nil_right, outerJoinNext, outerJoinWhich, consumeNext,
      Bind.bind, Except.bind]
  | pa :: ta, pb :: tb =>
    rcases h : compare pb.1 pa.1 with hc | hc | hc
    · rw [outerJoinRun_cons_lt h]
      simp [outerJoinNext, outerJoinWhich, consumeNext, h, Bind.bind, Except.bind]
    · rw [outerJoinRun_cons_eq h]
      simp [outerJoinNext, outerJoinWhich, consumeNext, h, Bind.bind, Except.bind]
    · rw [outerJoinRun_cons_gt h]
      simp [outerJoinNext, outerJoinWhich, consumeNext, h, Bind.bind, Except.bind]

/-! ### The inner joins emit subsequences of their inputs -/

/-- The set-set join's output is a subsequence of its left input. -/
theorem innerJoinSetRun_sublist {K : Type} [LinearOrder K] (a b : List K) :
    List.Sublist (innerJoinSetRun a b) a := by
  induction a, b using innerJoinSetRun.induct with
  | case1 b => rw [innerJoinSetRun_nil_left]
  | case2 ka ta => rw [innerJoinSetRun_nil_right]; exact List.nil_sublist _
  | case3 ka ta kb tb h ih =>
    rw [innerJoinSetRun_cons_lt h]
    exact ih.cons ka
  | case4 ka ta kb tb h ih =>
    rw [innerJoinSetRun_cons_eq h]
    exact ih.cons₂ ka
  | case5 ka ta kb tb h ih =>
    rw [innerJoinSetRun_cons_gt h]
    exact ih

/-- The map-map join's output keys form a subsequence of the left input's
keys. -/
theorem keysOf_innerJoinMapRun_sublist {K V1 V2 : Type} [LinearOrder K]
    (a : List (K × V1)) (b : List (K × V2)) :
    List.Sublist (keysOf (innerJoinMapRun a b)) (keysOf a) := by
  induction a, b using innerJoinMapRun.induct with
  | case1 b => rw [innerJoinMapRun_nil_left]; exact List.nil_sublist _
  | case2 pa ta => rw [innerJoinMapRun_nil_right]; exact List.nil_sublist _
  | case3 ka da ta kb db tb h ih =>
    rw [innerJoinMapRun_cons_lt h, keysOf_cons]
    exact ih.cons ka
  | case4 ka da ta kb db tb h ih =>
    rw [innerJoinMapRun_cons_eq h, keysOf_cons, keysOf_cons]
    exact ih.cons₂ ka
  | case5 ka da ta kb db tb h ih =>
    rw [innerJoinMapRun_cons_gt h]
    exact ih

/-- The map-set join's output keys form a subsequence of the set input. -/
theorem keysOf_innerJoinMapSetRun_sublist {K V : Type} [LinearOrder K]
    (m : List (K × V)) (s : List K) :
    List.Sublist (keysOf (innerJoinMapSetRun m s)) s := by
  induction m, s using innerJoinMapSetRun.induct with
  | case1 m => rw [innerJoinMapSetRun_nil_set]; exact List.nil_sublist _
  | case2 ks ts => rw [innerJoinMapSetRun_nil_map]; exact List.nil_sublist _
  | case3 km d tm ks ts h ih =>
    rw [innerJoinMapSetRun_cons_lt h]
    exact ih.cons ks
  | case4 km d tm ks ts h ih =>
    rw [innerJoinMapSetRun_cons_eq h, keysOf_cons]
    exact ih.cons₂ ks
  | case5 km d tm ks ts h ih =>
    rw [innerJoinMapSetRun_cons_gt h]
    exact ih

/-! ### Outer join: emitted keys are the union of the input keys -/

/-- A key appears in the outer join's output exactly when it appears in
either input (no ordering assumption needed). -/
theorem mem_keysOf_outerJoinRun {K V1 V2 : Type} [LinearOrder K]
    (l : List (K × V1)) (r : List (K × V2)) (k : K) :
    k ∈ keysOf (outerJoinRun l r) ↔ k ∈ keysOf l ∨ k ∈ keysOf r := by
  induction l, r using outerJoinRun.induct with
  | case1 => simp [outerJoinRun_nil_nil, keysOf]
  | case2 kb vb tb ih =>
    simp only [outerJoinRun, keysOf, List.map_cons, List.mem_cons] at ih ⊢
    tauto
  | case3 ka va ta ih =>
    simp only [outerJoinRun, keysOf, List.map_cons, List.mem_cons] at ih ⊢
    tauto
  | case4 ka va ta kb vb tb h ih =>
    have hk : kb = ka := compare_eq_iff_eq.mp h
    subst hk
    simp only [outerJoinRun, h, keysOf, List.map_cons, List.mem_cons] at ih ⊢
    tauto
  | case5 ka va ta kb vb tb h ih =>
    simp only [outerJoinRun, h, keysOf, List.map_cons, List.mem_cons] at ih ⊢
    tauto
  | case6 ka va ta kb vb tb h ih =>
    simp only [outerJoinRun, h, keysOf, List.map_cons, List.mem_cons] at ih ⊢
    tauto

/-- With both inputs strictly ascending, the outer join's output keys are
strictly ascending. -/
theorem strictAsc_keysOf_outerJoinRun {K V1 V2 : Type} [LinearOrder K]
    (l : List (K × V1)) (r : List (K × V2)) :
    StrictAsc (keysOf l) → StrictAsc (keysOf r) →
      StrictAsc (keysOf (outerJoinRun l r)) := by
  induction l, r using outerJoinRun.induct with
  | case1 =>
    intro _ _
    simp [outerJoinRun_nil_nil, keysOf]
  | case2 kb vb tb ih =>
    intro hl hr
    simp only [keysOf, List.map_cons] at hr ⊢
    simp only [outerJoinRun, List.map_cons]
    refine List.pairwise_cons.mpr ⟨?_, ih hl (List.pairwise_cons.mp hr).2⟩
    intro k hk
    have := (mem_keysOf_outerJoinRun [] tb k).mp hk
    rcases this with hk' | hk'
    · simp [keysOf] at hk'
    · exact (List.pairwise_cons.mp hr).1 k hk'
  | case3 ka va ta ih =>
    intro hl hr
    simp only [keysOf, List.map_cons] at hl ⊢
    simp only [outerJoinRun, List.map_cons]
    refine List.pairwise_cons.mpr ⟨?_, ih (List.pairwise_cons.mp hl).2 hr⟩
    intro k hk
    have := (mem_keysOf_outerJoinRun ta [] k).mp hk
    rcases this with hk' | hk'
    · exact (List.pairwise_cons.mp hl).1 k hk'
    · simp [keysOf] at hk'
  | case4 ka va ta kb vb tb h ih =>
    intro hl hr
    have hk : kb = ka := compare_eq_iff_eq.mp h
    subst hk
    simp only [keysOf, List.map_cons] at hl hr ⊢
    simp only [outerJoinRun, h, List.map_cons]
    refine List.pairwise_cons.mpr
      ⟨?_, ih (List.pairwise_cons.mp hl).2 (List.pairwise_cons.mp hr).2⟩
    intro k hk
    have := (mem_keysOf_outerJoinRun ta tb k).mp hk
    rcases this with hk' | hk'
    · exact (List.pairwise_cons.mp hl).1 k hk'
    · exact (List.pairwise_cons.mp hr).1 k hk'
  | case5 ka va ta kb vb tb h ih =>
    intro hl hr
    have hlt : kb < ka := compare_lt_iff_lt.mp h
    simp only [keysOf, List.map_cons] at hl hr ⊢
    simp only [outerJoinRun, h, List.map_cons]
    refine List.pairwise_cons.mpr ⟨?_, ih hl (List.pairwise_cons.mp hr).2⟩
    intro k hk
    have := (mem_keysOf_outerJoinRun ((ka, va) :: ta) tb k).mp hk
    rcases this with hk' | hk'
    · simp only [keysOf, List.map_cons, List.mem_cons] at hk'
      rcases hk' with rfl | hk'
      · exact hlt
      · exact lt_trans hlt ((List.pairwise_cons.mp hl).1 k hk')
    · exact (List.pairwise_cons.mp hr).1 k hk'
  | case6 ka va ta kb vb tb h ih =>
    intro hl hr
    have hgt : ka < kb := compare_gt_iff_gt.mp h
    simp only [keysOf, List.map_cons] at hl hr ⊢
    simp only [outerJoinRun, h, List.map_cons]
    refine List.pairwise_cons.mpr ⟨?_, ih (List.pairwise_cons.mp hl).2 hr⟩
    intro k hk
    have := (mem_keysOf_outerJoinRun ta ((kb, vb) :: tb) k).mp hk
    rcases this with hk' | hk'
    · exact (List.pairwise_cons.mp hl).1 k hk'
    · simp only [keysOf, List.map_cons, List.mem_cons] at hk'
      rcases hk' with rfl | hk'
      · exact hgt
      · exact lt_trans hgt ((List.pairwise_cons.mp hr).1 k hk')

/-! ### Characterization of the inner joins -/

theorem innerJoinSetRun_nil_any {K : Type} [LinearOrder K] (b : List K) :
    innerJoinSetRun b ([] : List K) = [] := by
  cases b with
  | nil => rw [innerJoinSetRun_nil_left]
  | cons kb tb => rw [innerJoinSetRun_nil_right]

/-- On strictly ascending inputs, the set-set join filters its left input
by membership in its right input. -/
theorem innerJoinSetRun_eq_filter {K : Type} [LinearOrder K] (a b : List K) :
    StrictAsc a → StrictAsc b →
      innerJoinSetRun a b = a.filter (fun k => decide (k ∈ b)) := by
  induction a, b using innerJoinSetRun.induct with
  | case1 b =>
    intro _ _
    rw [innerJoinSetRun_nil_left, List.filter_nil]
  | case2 ka ta =>
    intro _ _
    rw [innerJoinSetRun_nil_right]
    simp
  | case3 ka ta kb tb h ih =>
    intro ha hb
    have hlt : ka < kb := compare_lt_iff_lt.mp h
    rw [innerJoinSetRun_cons_lt h, ih (List.pairwise_cons.mp ha).2 hb]
    have hmem : ka ∉ kb :: tb := by
      intro hm
      rcases List.mem_cons.mp hm with rfl | hm
      · exact lt_irrefl _ hlt
      · exact lt_asymm hlt (strictAsc_cons_lt hb hm)
    rw [List.filter_cons]
    simp [hmem]
  | case4 ka ta kb tb h ih =>
    intro ha hb
    have heq : ka = kb := compare_eq_iff_eq.mp h
    rw [innerJoinSetRun_cons_eq h,
      ih (List.pairwise_cons.mp ha).2 (List.pairwise_cons.mp hb).2]
    have hmem : ka ∈ kb :: tb := by rw [heq]; exact List.mem_cons_self _ _
    rw [List.filter_cons]
    simp only [hmem, decide_True, if_true]
    refine congrArg _ (List.filter_congr ?_)
    intro x hx
    have hax : ka < x := strictAsc_cons_lt ha hx
    have hxkb : ¬ x = kb := by
      intro hxe
      rw [heq] at hax
      rw [hxe] at hax
      exact lt_irrefl _ hax
    simp [List.mem_cons, hxkb]
  | case5 ka ta kb tb h ih =>
    intro ha hb
    have hgt : kb < ka := compare_gt_iff_gt.mp h
    rw [innerJoinSetRun_cons_gt h, ih ha (List.pairwise_cons.mp hb).2]
    refine List.filter_congr ?_
    intro x hx
    have hbx : kb < x := by
      rcases List.mem_cons.mp hx with rfl | hx
      · exact hgt
      · exact lt_trans hgt (strictAsc_cons_lt ha hx)
    have hxkb : ¬ x = kb := by
      intro hxe
      rw [hxe] at hbx
      exact lt_irrefl _ hbx
    simp [List.mem_cons, hxkb]

/-- The set-set join is commutative as a sequence (no ordering assumption
is even needed). -/
theorem innerJoinSetRun_comm {K : Type} [LinearOrder K] (a b : List K) :
    innerJoinSetRun a b = innerJoinSetRun b a := by
  induction a, b using innerJoinSetRun.induct with
  | case1 b => rw [innerJoinSetRun_nil_left, innerJoinSetRun_nil_any]
  | case2 ka ta => rw [innerJoinSetRun_nil_right, innerJoinSetRun_nil_left]
  | case3 ka ta kb tb h ih =>
    have hgt : compare kb ka = Ordering.gt :=
      compare_gt_iff_gt.mpr (compare_lt_iff_lt.mp h)
    rw [innerJoinSetRun_cons_lt h, innerJoinSetRun_cons_gt hgt, ih]
  | case4 ka ta kb tb h ih =>
    have heq : ka = kb := compare_eq_iff_eq.mp h
    subst heq
    have heq' : compare ka ka = Ordering.eq := compare_eq_iff_eq.mpr rfl
    rw [innerJoinSetRun_cons_eq h, innerJoinSetRun_cons_eq heq', ih]
  | case5 ka ta kb tb h ih =>
    have hlt : compare kb ka = Ordering.lt :=
      compare_lt_iff_lt.mpr (compare_gt_iff_gt.mp h)
    rw [innerJoinSetRun_cons_gt h, innerJoinSetRun_cons_lt hlt, ih]

/-- On strictly ascending inputs, the map-set join filters the map by set
membership of the key. -/
theorem innerJoinMapSetRun_eq_filter {K V : Type} [LinearOrder K]
    (m : List (K × V)) (s : List K) :
    StrictAsc (keysOf m) → StrictAsc s →
      innerJoinMapSetRun m s = m.filter (fun p => decide (p.1 ∈ s)) := by
  induction m, s using innerJoinMapSetRun.induct with
  | case1 m =>
    intro _ _
    rw [innerJoinMapSetRun_nil_set]
    simp
  | case2 ks ts =>
    intro _ _
    rw [innerJoinMapSetRun_nil_map, List.filter_nil]
  | case3 km d tm ks ts h ih =>
    intro hm hs
    have hlt : ks < km := compare_lt_iff_lt.mp h
    rw [keysOf_cons] at hm
    simp only [innerJoinMapSetRun, h]
    rw [ih (by rw [keysOf_cons]; exact hm) (List.pairwise_cons.mp hs).2]
    refine List.filter_congr ?_
    intro p hp
    have hkp : ks < p.1 := by
      have : p.1 ∈ km :: keysOf tm := by
        simpa [keysOf_cons] using fst_mem_keysOf hp
      rcases List.mem_cons.mp this with hpk | hpk
      · rw [hpk]; exact hlt
      · exact lt_trans hlt (strictAsc_cons_lt hm hpk)
    have hne : ¬ p.1 = ks := by
      intro hxe
      rw [hxe] at hkp
      exact lt_irrefl _ hkp
    simp [List.mem_cons, hne]
  | case4 km d tm ks ts h ih =>
    intro hm hs
    have heq : ks = km := compare_eq_iff_eq.mp h
    rw [keysOf_cons] at hm
    simp only [innerJoinMapSetRun, h]
    rw [ih (List.pairwise_cons.mp hm).2 (List.pairwise_cons.mp hs).2]
    have hmem : km ∈ ks :: ts := by rw [heq]; exact List.mem_cons_self _ _
    rw [List.filter_cons]
    simp only [hmem, decide_True, if_true]
    have hhead : ((ks, d) : K × V) = (km, d) := by rw [heq]
    rw [hhead]
    refine congrArg _ (List.filter_congr ?_)
    intro p hp
    have hkp : km < p.1 := by
      have : p.1 ∈ keysOf tm := fst_mem_keysOf hp
      exact strictAsc_cons_lt hm this
    have hne : ¬ p.1 = ks := by
      intro hxe
      rw [hxe, heq] at hkp
      exact lt_irrefl _ hkp
    simp [List.mem_cons, hne]
  | case5 km d tm ks ts h ih =>
    intro hm hs
    have hgt : km < ks := compare_gt_iff_gt.mp h
    rw [keysOf_cons] at hm
    simp only [innerJoinMapSetRun, h]
    rw [ih (List.pairwise_cons.mp hm).2 hs]
    have hmem : km ∉ ks :: ts := by
      intro hmm
      rcases List.mem_cons.mp hmm with rfl | hmm
      · exact lt_irrefl _ hgt
      · exact lt_asymm hgt (strictAsc_cons_lt hs hmm)
    rw [List.filter_cons]
    simp [hmem]

/-- On strictly ascending inputs, an element `(k, (v1, v2))` is emitted by
the map-map join exactly when `(k, v1)` occurs in the left input and
`(k, v2)` in the right input. -/
theorem mem_innerJoinMapRun {K V1 V2 : Type} [LinearOrder K]
    (a : List (K × V1)) (b : List (K × V2)) (k : K) (v1 : V1) (v2 : V2) :
    StrictAsc (keysOf a) → StrictAsc (keysOf b) →
      ((k, (v1, v2)) ∈ innerJoinMapRun a b ↔ (k, v1) ∈ a ∧ (k, v2) ∈ b) := by
  induction a, b using innerJoinMapRun.induct with
  | case1 b =>
    intro _ _
    rw [innerJoinMapRun_nil_left]
    simp
  | case2 pa ta =>
    intro _ _
    rw [innerJoinMapRun_nil_right]
    simp
  | case3 ka da ta kb db tb h ih =>
    intro ha hb
    have hlt : ka < kb := compare_lt_iff_lt.mp h
    rw [keysOf_cons] at ha hb
    simp only [innerJoinMapRun, h]
    rw [ih (List.pairwise_cons.mp ha).2 hb]
    have hc1 : (k, v2) ∈ (kb, db) :: tb → ¬ k = ka := by
      intro hm hk
      subst hk
      have hkm : k ∈ kb :: keysOf tb := by
        simpa [keysOf_cons] using fst_mem_keysOf hm
      rcases List.mem_cons.mp hkm with rfl | hkm
      · exact lt_irrefl _ hlt
      · exact lt_asymm hlt (strictAsc_cons_lt hb hkm)
    constructor
    · rintro ⟨h1, h2⟩
      exact ⟨List.mem_cons_of_mem _ h1, h2⟩
    · rintro ⟨h1, h2⟩
      rcases List.mem_cons.mp h1 with heq | h1
      · exact absurd (congrArg Prod.fst heq) (hc1 h2)
      · exact ⟨h1, h2⟩
  | case4 ka da ta kb db tb h ih =>
    intro ha hb
    have heq : ka = kb := compare_eq_iff_eq.mp h
    subst heq
    rw [keysOf_cons] at ha hb
    simp only [innerJoinMapRun, h]
    rw [List.mem_cons,
      ih (List.pairwise_cons.mp ha).2 (List.pairwise_cons.mp hb).2]
    have hc1 : (k, v1) ∈ ta → ¬ k = ka := by
      intro hm hk
      subst hk
      have h1 : (k, v1).1 ∈ keysOf ta := fst_mem_keysOf hm
      exact lt_irrefl k (strictAsc_cons_lt ha h1)
    have hc2 : (k, v2) ∈ tb → ¬ k = ka := by
      intro hm hk
      subst hk
      have h1 : (k, v2).1 ∈ keysOf tb := fst_mem_keysOf hm
      exact lt_irrefl k (strictAsc_cons_lt hb h1)
    constructor
    · rintro (heq2 | ⟨h1, h2⟩)
      · obtain ⟨hk, hv⟩ := Prod.ext_iff.mp heq2
        obtain ⟨hv1, hv2⟩ := Prod.ext_iff.mp hv
        subst hk
        simp only at hv1 hv2
        subst hv1
        subst hv2
        exact ⟨List.mem_cons_self _ _, List.mem_cons_self _ _⟩
      · exact ⟨List.mem_cons_of_mem _ h1, List.mem_cons_of_mem _ h2⟩
    · rintro ⟨h1, h2⟩
      rcases List.mem_cons.mp h1 with heq1 | h1
      · rcases List.mem_cons.mp h2 with heq2 | h2
        · obtain ⟨hk, hv1⟩ := Prod.ext_iff.mp heq1
          obtain ⟨-, hv2⟩ := Prod.ext_iff.mp heq2
          simp only at hk hv1 hv2
          subst hk
          subst hv1
          subst hv2
          exact Or.inl rfl
        · exact absurd (congrArg Prod.fst heq1) (hc2 h2)
      · rcases List.mem_cons.mp h2 with heq2 | h2
        · exact absurd (congrArg Prod.fst heq2) (hc1 h1)
        · exact Or.inr ⟨h1, h2⟩
  | case5 ka da ta kb db tb h ih =>
    intro ha hb
    have hgt : kb < ka := compare_gt_iff_gt.mp h
    rw [keysOf_cons] at ha hb
    simp only [innerJoinMapRun, h]
    rw [ih ha (List.pairwise_cons.mp hb).2]
    have hc1 : (k, v1) ∈ (ka, da) :: ta → ¬ k = kb := by
      intro hm hk
      subst hk
      have hkm : k ∈ ka :: keysOf ta := by
        simpa [keysOf_cons] using fst_mem_keysOf hm
      rcases List.mem_cons.mp hkm with rfl | hkm
      · exact lt_irrefl _ hgt
      · exact lt_asymm hgt (strictAsc_cons_lt ha hkm)
    constructor
    · rintro ⟨h1, h2⟩
      exact ⟨h1, List.mem_cons_of_mem _ h2⟩
    · rintro ⟨h1, h2⟩
      rcases List.mem_cons.mp h2 with heq | h2
      · exact absurd (congrArg Prod.fst heq) (hc1 h1)
      · exact ⟨h1, h2⟩

/-- The outer join never emits an element with both value slots empty. -/
theorem outerJoinRun_no_none_none {K V1 V2 : Type} [LinearOrder K]
    (l : List (K × V1)) (r : List (K × V2)) (k : K) :
    (k, ((none : Option V1), (none : Option V2))) ∉ outerJoinRun l r := by
  induction l, r using outerJoinRun.induct with
  | case1 => simp [outerJoinRun_nil_nil]
  | case2 kb vb tb ih => simp [outerJoinRun, ih]
  | case3 ka va ta ih => simp [outerJoinRun, ih]
  | case4 ka va ta kb vb tb h ih => simp [outerJoinRun, h, ih]
  | case5 ka va ta kb vb tb h ih => simp [outerJoinRun, h, ih]
  | case6 ka va ta kb vb tb h ih => simp [outerJoinRun, h, ih]

/-- On strictly ascending inputs, the outer join emits
`(k, (Some v1, Some v2))` exactly when `(k, v1)` is in the left input and
`(k, v2)` in the right input. -/
theorem mem_outerJoinRun_both {K V1 V2 : Type} [LinearOrder K]
    (l : List (K × V1)) (r : List (K × V2)) (k : K) (v1 : V1) (v2 : V2) :
    StrictAsc (keysOf l) → StrictAsc (keysOf r) →
      ((k, (some v1, some v2)) ∈ outerJoinRun l r ↔
        (k, v1) ∈ l ∧ (k, v2) ∈ r) := by
  induction l, r using outerJoinRun.induct with
  | case1 =>
    intro _ _
    simp [outerJoinRun_nil_nil]
  | case2 kb vb tb ih =>
    intro hl hr
    rw [keysOf_cons] at hr
    simp only [outerJoinRun, List.mem_cons]
    rw [ih hl (List.pairwise_cons.mp hr).2]
    constructor
    · rintro (heq | ⟨h1, h2⟩)
      · exact absurd (congrArg (fun p => p.2.1) heq) (Option.some_ne_none v1)
      · exact absurd h1 (List.not_mem_nil _)
    · rintro ⟨h1, h2⟩
      exact absurd h1 (List.not_mem_nil _)
  | case3 ka va ta ih =>
    intro hl hr
    rw [keysOf_cons] at hl
    simp only [outerJoinRun, List.mem_cons]
    rw [ih (List.pairwise_cons.mp hl).2 hr]
    constructor
    · rintro (heq | ⟨h1, h2⟩)
      · exact absurd (congrArg (fun p => p.2.2) heq) (Option.some_ne_none v2)
      · exact absurd h2 (List.not_mem_nil _)
    · rintro ⟨h1, h2⟩
      exact absurd h2 (List.not_mem_nil _)
  | case4 ka va ta kb vb tb h ih =>
    intro hl hr
    have heqk : kb = ka := compare_eq_iff_eq.mp h
    subst heqk
    rw [keysOf_cons] at hl hr
    have hc1 : (k, v1) ∈ ta → ¬ k = kb := by
      intro hm hk
      subst hk
      have h1 : k ∈ keysOf ta := fst_mem_keysOf hm
      exact lt_irrefl k (strictAsc_cons_lt hl h1)
    have hc2 : (k, v2) ∈ tb → ¬ k = kb := by
      intro hm hk
      subst hk
      have h1 : k ∈ keysOf tb := fst_mem_keysOf hm
      exact lt_irrefl k (strictAsc_cons_lt hr h1)
    simp only [outerJoinRun, h, List.mem_cons]
    rw [ih (List.pairwise_cons.mp hl).2 (List.pairwise_cons.mp hr).2]
    constructor
    · rintro (heq | ⟨h1, h2⟩)
      · have hk : k = kb := congrArg Prod.fst heq
        have hv1 : v1 = va := Option.some.inj (congrArg (fun p => p.2.1) heq)
        have hv2 : v2 = vb := Option.some.inj (congrArg (fun p => p.2.2) heq)
        subst hk; subst hv1; subst hv2
        exact ⟨Or.inl rfl, Or.inl rfl⟩
      · exact ⟨Or.inr h1, Or.inr h2⟩
    · rintro ⟨h1 | h1, h2 | h2⟩
      · have hk : k = kb := congrArg Prod.fst h1
        have hv1 : v1 = va := congrArg Prod.snd h1
        have hv2 : v2 = vb := congrArg Prod.snd h2
        subst hk; subst hv1; subst hv2
        exact Or.inl rfl
      · exact absurd (congrArg Prod.fst h1) (hc2 h2)
      · exact absurd (congrArg Prod.fst h2) (hc1 h1)
      · exact Or.inr ⟨h1, h2⟩
  | case5 ka va ta kb vb tb h ih =>
    intro hl hr
    have hlt : kb < ka := compare_lt_iff_lt.mp h
    rw [keysOf_cons] at hl hr
    have hc1 : (k, v1) ∈ (ka, va) :: ta → ¬ k = kb := by
      intro hm hk
      subst hk
      have h1 : k ∈ ka :: keysOf ta := fst_mem_keysOf hm
      rcases List.mem_cons.mp h1 with rfl | h1
      · exact lt_irrefl _ hlt
      · exact lt_asymm hlt (strictAsc_cons_lt hl h1)
    simp only [outerJoinRun, h, List.mem_cons]
    rw [ih hl (List.pairwise_cons.mp hr).2]
    constructor
    · rintro (heq | ⟨h1, h2⟩)
      · exact absurd (congrArg (fun p => p.2.1) heq) (Option.some_ne_none v1)
      · exact ⟨List.mem_cons.mp h1, Or.inr h2⟩
    · rintro ⟨h1, h2 | h2⟩
      · exact absurd (congrArg Prod.fst h2) (hc1 (List.mem_cons.mpr h1))
      · exact Or.inr ⟨List.mem_cons.mpr h1, h2⟩
  | case6 ka va ta kb vb tb h ih =>
    intro hl hr
    have hgt : ka < kb := compare_gt_iff_gt.mp h
    rw [keysOf_cons] at hl hr
    have hc1 : (k, v2) ∈ (kb, vb) :: tb → ¬ k = ka := by
      intro hm hk
      subst hk
      have h1 : k ∈ kb :: keysOf tb := fst_mem_keysOf hm
      rcases List.mem_cons.mp h1 with rfl | h1
      · exact lt_irrefl _ hgt
      · exact lt_asymm hgt (strictAsc_cons_lt hr h1)
    simp only [outerJoinRun, h, List.mem_cons]
    rw [ih (List.pairwise_cons.mp hl).2 hr]
    constructor
    · rintro (heq | ⟨h1, h2⟩)
      · exact absurd (congrArg (fun p => p.2.2) heq) (Option.some_ne_none v2)
      · exact ⟨Or.inr h1, List.mem_cons.mp h2⟩
    · rintro ⟨h1 | h1, h2⟩
      · exact absurd (congrArg Prod.fst h1) (hc1 (List.mem_cons.mpr h2))
      · exact Or.inr ⟨h1, List.mem_cons.mpr h2⟩

/-- On strictly ascending inputs, the outer join emits `(k, (Some v1, None))`
exactly when `(k, v1)` is in the left input and `k` is absent from the
right input's keys. -/
theorem mem_outerJoinRun_left {K V1 V2 : Type} [LinearOrder K]
    (l : List (K × V1)) (r : List (K × V2)) (k : K) (v1 : V1) :
    StrictAsc (keysOf l) → StrictAsc (keysOf r) →
      ((k, (some v1, (none : Option V2))) ∈ outerJoinRun l r ↔
        (k, v1) ∈ l ∧ k ∉ keysOf r) := by
  induction l, r using outerJoinRun.induct with
  | case1 =>
    intro _ _
    simp [outerJoinRun_nil_nil]
  | case2 kb vb tb ih =>
    intro hl hr
    rw [keysOf_cons] at hr
    simp only [outerJoinRun, List.mem_cons]
    rw [ih hl (List.pairwise_cons.mp hr).2]
    constructor
    · rintro (heq | ⟨h1, _⟩)
      · exact absurd (congrArg (fun p => p.2.1) heq) (Option.some_ne_none v1)
      · exact absurd h1 (List.not_mem_nil _)
    · rintro ⟨h1, _⟩
      exact absurd h1 (List.not_mem_nil _)
  | case3 ka va ta ih =>
    intro hl hr
    rw [keysOf_cons] at hl
    simp only [outerJoinRun, List.mem_cons]
    rw [ih (List.pairwise_cons.mp hl).2 hr]
    constructor
    · rintro (heq | ⟨h1, h2⟩)
      · have hk : k = ka := congrArg Prod.fst heq
        have hv1 : v1 = va := Option.some.inj (congrArg (fun p => p.2.1) heq)
        subst hk; subst hv1
        exact ⟨Or.inl rfl, List.not_mem_nil _⟩
      · exact ⟨Or.inr h1, h2⟩
    · rintro ⟨h1 | h1, h2⟩
      · have hk : k = ka := congrArg Prod.fst h1
        have hv1 : v1 = va := congrArg Prod.snd h1
        subst hk; subst hv1
        exact Or.inl rfl
      · exact Or.inr ⟨h1, h2⟩
  | case4 ka va ta kb vb tb h ih =>
    intro hl hr
    have heqk : kb = ka := compare_eq_iff_eq.mp h
    subst heqk
    rw [keysOf_cons] at hl hr
    have hc1 : (k, v1) ∈ ta → ¬ k = kb := by
      intro hm hk
      subst hk
      have h1 : k ∈ keysOf ta := fst_mem_keysOf hm
      exact lt_irrefl k (strictAsc_cons_lt hl h1)
    simp only [outerJoinRun, h, List.mem_cons]
    rw [ih (List.pairwise_cons.mp hl).2 (List.pairwise_cons.mp hr).2]
    constructor
    · rintro (heq | ⟨h1, h2⟩)
      · exact absurd (congrArg (fun p => p.2.2) heq) (fun hx => Option.noConfusion hx)
      · refine ⟨Or.inr h1, ?_⟩
        intro hm
        have hm' : k ∈ kb :: keysOf tb := by
          simpa [keysOf_cons] using hm
        rcases List.mem_cons.mp hm' with hk | hm'
        · exact hc1 h1 hk
        · exact h2 hm'
    · rintro ⟨h1 | h1, h2⟩
      · exfalso
        apply h2
        have hk : k = kb := congrArg Prod.fst h1
        rw [keysOf_cons, hk]
        exact List.mem_cons_self _ _
      · refine Or.inr ⟨h1, ?_⟩
        intro hm
        apply h2
        rw [keysOf_cons]
        exact List.mem_cons_of_mem _ hm
  | case5 ka va ta kb vb tb h ih =>
    intro hl hr
    have hlt : kb < ka := compare_lt_iff_lt.mp h
    rw [keysOf_cons] at hl hr
    have hc1 : (k, v1) ∈ (ka, va) :: ta → ¬ k = kb := by
      intro hm hk
      subst hk
      have h1 : k ∈ ka :: keysOf ta := fst_mem_keysOf hm
      rcases List.mem_cons.mp h1 with rfl | h1
      · exact lt_irrefl _ hlt
      · exact lt_asymm hlt (strictAsc_cons_lt hl h1)
    simp only [outerJoinRun, h, List.mem_cons]
    rw [ih hl (List.pairwise_cons.mp hr).2]
    constructor
    · rintro (heq | ⟨h1, h2⟩)
      · exact absurd (congrArg (fun p => p.2.1) heq) (Option.some_ne_none v1)
      · refine ⟨List.mem_cons.mp h1, ?_⟩
        intro hm
        have hm' : k ∈ kb :: keysOf tb := by
          simpa [keysOf_cons] using hm
        rcases List.mem_cons.mp hm' with hk | hm'
        · exact hc1 h1 hk
        · exact h2 hm'
    · rintro ⟨h1, h2⟩
      refine Or.inr ⟨List.mem_cons.mpr h1, ?_⟩
      intro hm
      apply h2
      rw [keysOf_cons]
      exact List.mem_cons_of_mem _ hm
  | case6 ka va ta kb vb tb h ih =>
    intro hl hr
    have hgt : ka < kb := compare_gt_iff_gt.mp h
    rw [keysOf_cons] at hl hr
    simp only [outerJoinRun, h, List.mem_cons]
    rw [ih (List.pairwise_cons.mp hl).2 hr]
    constructor
    · rintro (heq | ⟨h1, h2⟩)
      · have hk : k = ka := congrArg Prod.fst heq
        have hv1 : v1 = va := Option.some.inj (congrArg (fun p => p.2.1) heq)
        subst hk; subst hv1
        refine ⟨Or.inl rfl, ?_⟩
        intro hm
        have hm' : k ∈ kb :: keysOf tb := by
          simpa [keysOf_cons] using hm
        rcases List.mem_cons.mp hm' with hk | hm'
        · rw [hk] at hgt; exact lt_irrefl _ hgt
        · exact lt_asymm hgt (strictAsc_cons_lt hr hm')
      · exact ⟨Or.inr h1, h2⟩
    · rintro ⟨h1 | h1, h2⟩
      · have hk : k = ka := congrArg Prod.fst h1
        have hv1 : v1 = va := congrArg Prod.snd h1
        subst hk; subst hv1
        exact Or.inl rfl
      · exact Or.inr ⟨h1, h2⟩

/-- On strictly ascending inputs, the outer join emits `(k, (None, Some v2))`
exactly when `(k, v2)` is in the right input and `k` is absent from the
left input's keys. -/
theorem mem_outerJoinRun_right {K V1 V2 : Type} [LinearOrder K]
    (l : List (K × V1)) (r : List (K × V2)) (k : K) (v2 : V2) :
    StrictAsc (keysOf l) → StrictAsc (keysOf r) →
      ((k, ((none : Option V1), some v2)) ∈ outerJoinRun l r ↔
        (k, v2) ∈ r ∧ k ∉ keysOf l) := by
  induction l, r using outerJoinRun.induct with
  | case1 =>
    intro _ _
    simp [outerJoinRun_nil_nil]
  | case2 kb vb tb ih =>
    intro hl hr
    rw [keysOf_cons] at hr
    simp only [outerJoinRun, List.mem_cons]
    rw [ih hl (List.pairwise_cons.mp hr).2]
    constructor
    · rintro (heq | ⟨h1, h2⟩)
      · have hk : k = kb := congrArg Prod.fst heq
        have hv2 : v2 = vb := Option.some.inj (congrArg (fun p => p.2.2) heq)
        subst hk; subst hv2
        exact ⟨Or.inl rfl, List.not_mem_nil _⟩
      · exact ⟨Or.inr h1, h2⟩
    · rintro ⟨h1 | h1, h2⟩
      · have hk : k = kb := congrArg Prod.fst h1
        have hv2 : v2 = vb := congrArg Prod.snd h1
        subst hk; subst hv2
        exact Or.inl rfl
      · exact Or.inr ⟨h1, h2⟩
  | case3 ka va ta ih =>
    intro hl hr
    rw [keysOf_cons] at hl
    simp only [outerJoinRun, List.mem_cons]
    rw [ih (List.pairwise_cons.mp hl).2 hr]
    constructor
    · rintro (heq | ⟨h1, _⟩)
      · exact absurd (congrArg (fun p => p.2.1) heq) (fun hx => Option.noConfusion hx)
      · exact absurd h1 (List.not_mem_nil _)
    · rintro ⟨h1, _⟩
      exact absurd h1 (List.not_mem_nil _)
  | case4 ka va ta kb vb tb h ih =>
    intro hl hr
    have heqk : kb = ka := compare_eq_iff_eq.mp h
    subst heqk
    rw [keysOf_cons] at hl hr
    have hc2 : (k, v2) ∈ tb → ¬ k = kb := by
      intro hm hk
      subst hk
      have h1 : k ∈ keysOf tb := fst_mem_keysOf hm
      exact lt_irrefl k (strictAsc_cons_lt hr h1)
    simp only [outerJoinRun, h, List.mem_cons]
    rw [ih (List.pairwise_cons.mp hl).2 (List.pairwise_cons.mp hr).2]
    constructor
    · rintro (heq | ⟨h1, h2⟩)
      · exact absurd (congrArg (fun p => p.2.1) heq) (fun hx => Option.noConfusion hx)
      · refine ⟨Or.inr h1, ?_⟩
        intro hm
        have hm' : k ∈ kb :: keysOf ta := by
          simpa [keysOf_cons] using hm
        rcases List.mem_cons.mp hm' with hk | hm'
        · exact hc2 h1 hk
        · exact h2 hm'
    · rintro ⟨h1 | h1, h2⟩
      · exfalso
        apply h2
        have hk : k = kb := congrArg Prod.fst h1
        rw [keysOf_cons, hk]
        exact List.mem_cons_self _ _
      · refine Or.inr ⟨h1, ?_⟩
        intro hm
        apply h2
        rw [keysOf_cons]
        exact List.mem_cons_of_mem _ hm
  | case5 ka va ta kb vb tb h ih =>
    intro hl hr
    have hlt : kb < ka := compare_lt_iff_lt.mp h
    rw [keysOf_cons] at hl hr
    simp only [outerJoinRun, h, List.mem_cons]
    rw [ih hl (List.pairwise_cons.mp hr).2]
    constructor
    · rintro (heq | ⟨h1, h2⟩)
      · have hk : k = kb := congrArg Prod.fst heq
        have hv2 : v2 = vb := Option.some.inj (congrArg (fun p => p.2.2) heq)
        subst hk; subst hv2
        refine ⟨Or.inl rfl, ?_⟩
        intro hm
        have hm' : k ∈ ka :: keysOf ta := by
          simpa [keysOf_cons] using hm
        rcases List.mem_cons.mp hm' with hk | hm'
        · rw [hk] at hlt; exact lt_irrefl _ hlt
        · exact lt_asymm hlt (strictAsc_cons_lt hl hm')
      · exact ⟨Or.inr h1, h2⟩
    · rintro ⟨h1 | h1, h2⟩
      · have hk : k = kb := congrArg Prod.fst h1
        have hv2 : v2 = vb := congrArg Prod.snd h1
        subst hk; subst hv2
        exact Or.inl rfl
      · exact Or.inr ⟨h1, h2⟩
  | case6 ka va ta kb vb tb h ih =>
    intro hl hr
    have hgt : ka < kb := compare_gt_iff_gt.mp h
    rw [keysOf_cons] at hl hr
    have hc1 : (k, v2) ∈ (kb, vb) :: tb → ¬ k = ka := by
      intro hm hk
      subst hk
      have h1 : k ∈ kb :: keysOf tb := fst_mem_keysOf hm
      rcases List.mem_cons.mp h1 with rfl | h1
      · exact lt_irrefl _ hgt
      · exact lt_asymm hgt (strictAsc_cons_lt hr h1)
    simp only [outerJoinRun, h, List.mem_cons]
    rw [ih (List.pairwise_cons.mp hl).2 hr]
    constructor
    · rintro (heq | ⟨h1, h2⟩)
      · exact absurd (congrArg (fun p => p.2.1) heq) (fun hx => Option.noConfusion hx)
      · refine ⟨List.mem_cons.mp h1, ?_⟩
        intro hm
        have hm' : k ∈ ka :: keysOf ta := by
          simpa [keysOf_cons] using hm
        rcases List.mem_cons.mp hm' with hk | hm'
        · exact hc1 h1 hk
        · exact h2 hm'
    · rintro ⟨h1, h2⟩
      refine Or.inr ⟨List.mem_cons.mpr h1, ?_⟩
      intro hm
      apply h2
      rw [keysOf_cons]
      exact List.mem_cons_of_mem _ hm

/-! ### State evolution of the `next` step functions -/

/-- When the map-map join loop emits, the remaining state lists are
suffixes of the lists the loop started from. -/
theorem innerJoinMapLoop_state {K V1 V2 : Type} [LinearOrder K]
    (pa : K × V1) (pb : K × V2) (ta : List (K × V1)) (tb : List (K × V2))
    {x : K × (V1 × V2)} {a' : List (K × V1)} {b' : List (K × V2)} :
    innerJoinMapLoop pa pb ta tb = some (x, a', b') →
      a'.IsSuffix ta ∧ b'.IsSuffix tb := by
  induction pa, pb, ta, tb using innerJoinMapLoop.induct with
  | case1 pa pb tb h =>
    rw [innerJoinMapLoop_lt h]
    intro hx
    exact Option.noConfusion hx
  | case2 pa pb tb h pa' ta' ih =>
    rw [innerJoinMapLoop_lt h]
    intro hx
    obtain ⟨h1, h2⟩ := ih hx
    exact ⟨h1.trans (List.suffix_cons _ _), h2⟩
  | case3 pa pb ta tb h =>
    rw [innerJoinMapLoop_eq h]
    intro hx
    injection hx with h1
    injection h1 with h2 h3
    injection h3 with h4 h5
    subst h4
    subst h5
    exact ⟨List.suffix_refl _, List.suffix_refl _⟩
  | case4 pa pb ta h =>
    rw [innerJoinMapLoop_gt h]
    intro hx
    exact Option.noConfusion hx
  | case5 pa pb ta h pb' tb' ih =>
    rw [innerJoinMapLoop_gt h]
    intro hx
    obtain ⟨h1, h2⟩ := ih hx
    exact ⟨h1, h2.trans (List.suffix_cons _ _)⟩

/-- When the set-set join loop emits, the remaining state lists are
suffixes of the lists the loop started from. -/
theorem innerJoinSetLoop_state {K : Type} [LinearOrder K]
    (ka kb : K) (ta tb : List K) {x : K} {a' b' : List K} :
    innerJoinSetLoop ka kb ta tb = some (x, a', b') →
      a'.IsSuffix ta ∧ b'.IsSuffix tb := by
  induction ka, kb, ta, tb using innerJoinSetLoop.induct with
  | case1 ka kb tb h =>
    rw [innerJoinSetLoop_lt h]
    intro hx
    exact Option.noConfusion hx
  | case2 ka kb tb h k ta' ih =>
    rw [innerJoinSetLoop_lt h]
    intro hx
    obtain ⟨h1, h2⟩ := ih hx
    exact ⟨h1.trans (List.suffix_cons _ _), h2⟩
  | case3 ka kb ta tb h =>
    rw [innerJoinSetLoop_eq h]
    intro hx
    injection hx with h1
    injection h1 with h2 h3
    injection h3 with h4 h5
    subst h4
    subst h5
    exact ⟨List.suffix_refl _, List.suffix_refl _⟩
  | case4 ka kb ta h =>
    rw [innerJoinSetLoop_gt h]
    intro hx
    exact Option.noConfusion hx
  | case5 ka kb ta h k tb' ih =>
    rw [innerJoinSetLoop_gt h]
    intro hx
    obtain ⟨h1, h2⟩ := ih hx
    exact ⟨h1, h2.trans (List.suffix_cons _ _)⟩

/-- When the map-set join loop emits, the remaining state lists are
suffixes of the lists the loop started from. -/
theorem innerJoinMapSetLoop_state {K V : Type} [LinearOrder K]
    (ks : K) (pm : K × V) (ts : List K) (tm : List (K × V))
    {x : K × V} {m' : List (K × V)} {s' : List K} :
    innerJoinMapSetLoop ks pm ts tm = some (x, m', s') →
      m'.IsSuffix tm ∧ s'.IsSuffix ts := by
  induction ks, pm, ts, tm using innerJoinMapSetLoop.induct with
  | case1 ks pm tm h =>
    rw [innerJoinMapSetLoop_lt h]
    intro hx
    exact Option.noConfusion hx
  | case2 ks pm tm h k ts' ih =>
    rw [innerJoinMapSetLoop_lt h]
    intro hx
    obtain ⟨h1, h2⟩ := ih hx
    exact ⟨h1, h2.trans (List.suffix_cons _ _)⟩
  | case3 ks pm ts tm h =>
    rw [innerJoinMapSetLoop_eq h]
    intro hx
    injection hx with h1
    injection h1 with h2 h3
    injection h3 with h4 h5
    subst h4
    subst h5
    exact ⟨List.suffix_refl _, List.suffix_refl _⟩
  | case4 ks pm ts h =>
    rw [innerJoinMapSetLoop_gt h]
    intro hx
    exact Option.noConfusion hx
  | case5 ks pm ts h pm' tm' ih =>
    rw [innerJoinMapSetLoop_gt h]
    intro hx
    obtain ⟨h1, h2⟩ := ih hx
    exact ⟨h1.trans (List.suffix_cons _ _), h2⟩

/-- A successful `InnerJoinMap::next` consumes at least one element from
each side (and never rewinds: the new state is a suffix). -/
theorem innerJoinMapNext_state {K V1 V2 : Type} [LinearOrder K]
    (a : List (K × V1)) (b : List (K × V2))
    {x : K × (V1 × V2)} {a' : List (K × V1)} {b' : List (K × V2)} :
    innerJoinMapNext a b = some (x, a', b') →
      a'.IsSuffix a ∧ b'.IsSuffix b ∧ a'.length < a.length ∧ b'.length < b.length := by
  match a, b with
  | [], b => intro hx; exact Option.noConfusion hx
  | pa :: ta, [] => intro hx; exact Option.noConfusion hx
  | pa :: ta, pb :: tb =>
    intro hx
    obtain ⟨h1, h2⟩ := innerJoinMapLoop_state pa pb ta tb hx
    exact ⟨h1.trans (List.suffix_cons _ _), h2.trans (List.suffix_cons _ _),
      Nat.lt_succ_of_le h1.length_le, Nat.lt_succ_of_le h2.length_le⟩

/-- A successful `InnerJoinSet::next` consumes at least one element from
each side. -/
theorem innerJoinSetNext_state {K : Type} [LinearOrder K]
    (a b : List K) {x : K} {a' b' : List K} :
    innerJoinSetNext a b = some (x, a', b') →
      a'.IsSuffix a ∧ b'.IsSuffix b ∧ a'.length < a.length ∧ b'.length < b.length := by
  match a, b with
  | [], b => intro hx; exact Option.noConfusion hx
  | ka :: ta, [] => intro hx; exact Option.noConfusion hx
  | ka :: ta, kb :: tb =>
    intro hx
    obtain ⟨h1, h2⟩ := innerJoinSetLoop_state ka kb ta tb hx
    exact ⟨h1.trans (List.suffix_cons _ _), h2.trans (List.suffix_cons _ _),
      Nat.lt_succ_of_le h1.length_le, Nat.lt_succ_of_le h2.length_le⟩

/-- A successful `InnerJoinMapSet::next` consumes at least one element from
each side. -/
theorem innerJoinMapSetNext_state {K V : Type} [LinearOrder K]
    (m : List (K × V)) (s : List K)
    {x : K × V} {m' : List (K × V)} {s' : List K} :
    innerJoinMapSetNext m s = some (x, m', s') →
      m'.IsSuffix m ∧ s'.IsSuffix s ∧ m'.length < m.length ∧ s'.length < s.length := by
  match m, s with
  | m, [] => intro hx; exact Option.noConfusion hx
  | [], ks :: ts => intro hx; exact Option.noConfusion hx
  | pm :: tm, ks :: ts =>
    intro hx
    obtain ⟨h1, h2⟩ := innerJoinMapSetLoop_state ks pm ts tm hx
    exact ⟨h1.trans (List.suffix_cons _ _), h2.trans (List.suffix_cons _ _),
      Nat.lt_succ_of_le h1.length_le, Nat.lt_succ_of_le h2.length_le⟩

/-- `OuterJoin::next` never reaches the `expect("no value found")` panic:
its result is always `ok` (exhaustion or an element). -/
theorem outerJoinNext_ok {K V1 V2 : Type} [LinearOrder K]
    (l : List (K × V1)) (r : List (K × V2)) :
    ∃ v, outerJoinNext l r = Except.ok v := by
  match l, r with
  | [], [] => exact ⟨none, rfl⟩
  | [], pb :: tb => exact ⟨_, rfl⟩
  | pa :: ta, [] => exact ⟨_, rfl⟩
  | pa :: ta, pb :: tb =>
    rcases h : compare pb.1 pa.1 with _ | _ | _
    · exact ⟨some ((pb.1, (none, some pb.2)), pa :: ta, tb), by
        simp [outerJoinNext, outerJoinWhich, consumeNext, h, Bind.bind, Except.bind]⟩
    · exact ⟨some ((pa.1, (some pa.2, some pb.2)), ta, tb), by
        simp [outerJoinNext, outerJoinWhich, consumeNext, h, Bind.bind, Except.bind]⟩
    · exact ⟨some ((pa.1, (some pa.2, none)), ta, pb :: tb), by
        simp [outerJoinNext, outerJoinWhich, consumeNext, h, Bind.bind, Except.bind]⟩

/-- A successful, element-producing `OuterJoin::next` consumes exactly one
element from one side or one from each: the new states are suffixes, each
side shrinks by at most one, and the total strictly shrinks. -/
theorem outerJoinNext_state {K V1 V2 : Type} [LinearOrder K]
    (l : List (K × V1)) (r : List (K × V2))
    {x : K × (Option V1 × Option V2)} {l' : List (K × V1)} {r' : List (K × V2)} :
    outerJoinNext l r = Except.ok (some (x, l', r')) →
      l'.IsSuffix l ∧ r'.IsSuffix r ∧ l.length ≤ l'.length + 1 ∧
        r.length ≤ r'.length + 1 ∧ l'.length + r'.length < l.length + r.length := by
  match l, r with
  | [], [] =>
    intro hx
    injection hx with h1
    exact Option.noConfusion h1
  | [], pb :: tb =>
    intro hx
    injection hx with h1
    injection h1 with h2
    injection h2 with h3 h4
    injection h4 with h5 h6
    subst h5
    subst h6
    refine ⟨List.nil_suffix, List.suffix_cons _ _, ?_, ?_, ?_⟩ <;>
      simp [List.length_cons]
  | pa :: ta, [] =>
    intro hx
    injection hx with h1
    injection h1 with h2
    injection h2 with h3 h4
    injection h4 with h5 h6
    subst h5
    subst h6
    refine ⟨List.suffix_cons _ _, List.nil_suffix, ?_, ?_, ?_⟩ <;>
      simp [List.length_cons]
  | pa :: ta, pb :: tb =>
    intro hx
    rcases h : compare pb.1 pa.1 with _ | _ | _ <;>
      simp only [outerJoinNext, outerJoinWhich, consumeNext, h, List.head?_cons,
        Bind.bind, Except.bind] at hx
    · injection hx with h1
      injection h1 with h2
      injection h2 with h3 h4
      injection h4 with h5 h6
      subst h5
      subst h6
      refine ⟨List.suffix_refl _, List.suffix_cons _ _, ?_, ?_, ?_⟩ <;>
        simp [List.length_cons]
    · injection hx with h1
      injection h1 with h2
      injection h2 with h3 h4
      injection h4 with h5 h6
      subst h5
      subst h6
      refine ⟨List.suffix_cons _ _, List.suffix_cons _ _, ?_, ?_, ?_⟩ <;>
        simp [List.length_cons]
      omega
    · injection hx with h1
      injection h1 with h2
      injection h2 with h3 h4
      injection h4 with h5 h6
      subst h5
      subst h6
      refine ⟨List.suffix_cons _ _, List.suffix_refl _, ?_, ?_, ?_⟩ <;>
        simp [List.length_cons]

/-! ### Claims -/

/-- C1: for strictly-ascending map inputs A and B, the inner-join-map
adaptor emits exactly the keys present in both, each paired with the values
originally associated in A and B, in ascending key order; and on
A = {2:1,...,18:9}, B = {3:1,...,27:9} the output is
(6,(3,2)), (12,(6,4)), (18,(9,6)). -/
theorem claim_inner_join_map_correct {K V1 V2 : Type} [LinearOrder K]
    (a : List (K × V1)) (b : List (K × V2))
    (ha : StrictAsc (keysOf a)) (hb : StrictAsc (keysOf b)) :
    (∀ (k : K) (v1 : V1) (v2 : V2),
        (k, (v1, v2)) ∈ innerJoinMapRun a b ↔ (k, v1) ∈ a ∧ (k, v2) ∈ b)
      ∧ StrictAsc (keysOf (innerJoinMapRun a b))
      ∧ innerJoinMapRun exampleMapA exampleMapB =
          [(6, (3, 2)), (12, (6, 4)), (18, (9, 6))] := by
  refine ⟨fun k v1 v2 => mem_innerJoinMapRun a b k v1 v2 ha hb,
    List.Pairwise.sublist (keysOf_innerJoinMapRun_sublist a b) ha, ?_⟩
  simp [innerJoinMapRun, exampleMapA, exampleMapB,
    LinearOrder.compare_eq_compareOfLessAndEq, compareOfLessAndEq]

/-- C1 witness: the theorem applied at the concrete ascending maps
[(1,10)] and [(1,20)]. -/
theorem claim_inner_join_map_correct_witness :
    (∀ (k : Nat) (v1 : Nat) (v2 : Nat),
        (k, (v1, v2)) ∈ innerJoinMapRun [((1 : Nat), (10 : Nat))] [((1 : Nat), (20 : Nat))] ↔
          (k, v1) ∈ [((1 : Nat), (10 : Nat))] ∧ (k, v2) ∈ [((1 : Nat), (20 : Nat))])
      ∧ StrictAsc (keysOf (innerJoinMapRun [((1 : Nat), (10 : Nat))] [((1 : Nat), (20 : Nat))]))
      ∧ innerJoinMapRun exampleMapA exampleMapB =
          [(6, (3, 2)), (12, (6, 4)), (18, (9, 6))] :=
  claim_inner_join_map_correct [((1 : Nat), (10 : Nat))] [((1 : Nat), (20 : Nat))]
    (by decide) (by decide)

/-- C2: for strictly-ascending map inputs, the outer join emits exactly the
union of the key sets; a key in both yields (Some valA, Some valB), a key
in only one input yields the present side's value and None on the absent
side, and both-None is never emitted. -/
theorem claim_outer_join_correct {K V1 V2 : Type} [LinearOrder K]
    (l : List (K × V1)) (r : List (K × V2))
    (hl : StrictAsc (keysOf l)) (hr : StrictAsc (keysOf r)) :
    (∀ k : K, k ∈ keysOf (outerJoinRun l r) ↔ k ∈ keysOf l ∨ k ∈ keysOf r)
      ∧ (∀ (k : K) (v1 : V1) (v2 : V2),
          (k, (some v1, some v2)) ∈ outerJoinRun l r ↔ (k, v1) ∈ l ∧ (k, v2) ∈ r)
      ∧ (∀ (k : K) (v1 : V1),
          (k, (some v1, (none : Option V2))) ∈ outerJoinRun l r ↔
            (k, v1) ∈ l ∧ k ∉ keysOf r)
      ∧ (∀ (k : K) (v2 : V2),
          (k, ((none : Option V1), some v2)) ∈ outerJoinRun l r ↔
            (k, v2) ∈ r ∧ k ∉ keysOf l)
      ∧ (∀ k : K, (k, ((none : Option V1), (none : Option V2))) ∉ outerJoinRun l r) :=
  ⟨fun k => mem_keysOf_outerJoinRun l r k,
    fun k v1 v2 => mem_outerJoinRun_both l r k v1 v2 hl hr,
    fun k v1 => mem_outerJoinRun_left l r k v1 hl hr,
    fun k v2 => mem_outerJoinRun_right l r k v2 hl hr,
    fun k => outerJoinRun_no_none_none l r k⟩

/-- C2 witness: the theorem applied at the concrete ascending maps
[(1,10)] and [(2,20)]. -/
theorem claim_outer_join_correct_witness :
    (∀ k : Nat, k ∈ keysOf (outerJoinRun [((1 : Nat), (10 : Nat))] [((2 : Nat), (20 : Nat))]) ↔
        k ∈ keysOf [((1 : Nat), (10 : Nat))] ∨ k ∈ keysOf [((2 : Nat), (20 : Nat))])
      ∧ (∀ (k : Nat) (v1 : Nat) (v2 : Nat),
          (k, (some v1, some v2)) ∈ outerJoinRun [((1 : Nat), (10 : Nat))] [((2 : Nat), (20 : Nat))] ↔
            (k, v1) ∈ [((1 : Nat), (10 : Nat))] ∧ (k, v2) ∈ [((2 : Nat), (20 : Nat))])
      ∧ (∀ (k : Nat) (v1 : Nat),
          (k, (some v1, (none : Option Nat))) ∈ outerJoinRun [((1 : Nat), (10 : Nat))] [((2 : Nat), (20 : Nat))] ↔
            (k, v1) ∈ [((1 : Nat), (10 : Nat))] ∧ k ∉ keysOf [((2 : Nat), (20 : Nat))])
      ∧ (∀ (k : Nat) (v2 : Nat),
          (k, ((none : Option Nat), some v2)) ∈ outerJoinRun [((1 : Nat), (10 : Nat))] [((2 : Nat), (20 : Nat))] ↔
            (k, v2) ∈ [((2 : Nat), (20 : Nat))] ∧ k ∉ keysOf [((1 : Nat), (10 : Nat))])
      ∧ (∀ k : Nat,
          (k, ((none : Option Nat), (none : Option Nat))) ∉
            outerJoinRun [((1 : Nat), (10 : Nat))] [((2 : Nat), (20 : Nat))]) :=
  claim_outer_join_correct [((1 : Nat), (10 : Nat))] [((2 : Nat), (20 : Nat))]
    (by decide) (by decide)

/-- C3: for strictly-ascending inputs, the output key sequence of each of
the four join adaptors is strictly ascending, so each output again
satisfies the ordered-map / ordered-set contract. -/
theorem claim_join_outputs_sorted {K V1 V2 V : Type} [LinearOrder K]
    (a : List (K × V1)) (b : List (K × V2)) (m : List (K × V)) (s s1 s2 : List K)
    (ha : StrictAsc (keysOf a)) (hb : StrictAsc (keysOf b))
    (hm : StrictAsc (keysOf m)) (hs : StrictAsc s)
    (hs1 : StrictAsc s1) (hs2 : StrictAsc s2) :
    StrictAsc (keysOf (innerJoinMapRun a b))
      ∧ StrictAsc (innerJoinSetRun s1 s2)
      ∧ StrictAsc (keysOf (innerJoinMapSetRun m s))
      ∧ StrictAsc (keysOf (outerJoinRun a b)) :=
  ⟨List.Pairwise.sublist (keysOf_innerJoinMapRun_sublist a b) ha,
    List.Pairwise.sublist (innerJoinSetRun_sublist s1 s2) hs1,
    List.Pairwise.sublist (keysOf_innerJoinMapSetRun_sublist m s) hs,
    strictAsc_keysOf_outerJoinRun a b ha hb⟩

/-- C3 witness: the theorem applied at concrete ascending inputs. -/
theorem claim_join_outputs_sorted_witness :
    StrictAsc (keysOf (innerJoinMapRun [((1 : Nat), (10 : Nat))] [((2 : Nat), (20 : Nat))]))
      ∧ StrictAsc (innerJoinSetRun [(1 : Nat), 2] [(2 : Nat), 3])
      ∧ StrictAsc (keysOf (innerJoinMapSetRun [((1 : Nat), (5 : Nat))] [(1 : Nat)]))
      ∧ StrictAsc (keysOf (outerJoinRun [((1 : Nat), (10 : Nat))] [((2 : Nat), (20 : Nat))])) :=
  claim_join_outputs_sorted [((1 : Nat), (10 : Nat))] [((2 : Nat), (20 : Nat))]
    [((1 : Nat), (5 : Nat))] [(1 : Nat)] [(1 : Nat), 2] [(2 : Nat), 3]
    (by decide) (by decide) (by decide) (by decide) (by decide) (by decide)

/-- C4: each inner join signals exhaustion as soon as either side runs out
during a search, even when the other side still has greater keys; the
outer join only ends when both sides are exhausted, and drains a sole
remaining side one element per call with None in the exhausted side's
slot. -/
theorem claim_exhaustion_policy {K V1 V2 V : Type} [LinearOrder K]
    (pa : K × V1) (pb : K × V2) (ta : List (K × V1)) (tb : List (K × V2))
    (ka kb : K) (sa sb : List K) (ks : K) (pm : K × V) (ts : List K)
    (tm : List (K × V)) (a : List (K × V1)) (b : List (K × V2))
    (m : List (K × V)) (s : List K) :
    (innerJoinMapNext a ([] : List (K × V2)) = none)
      ∧ (innerJoinMapNext ([] : List (K × V1)) b = none)
      ∧ (pa.1 < pb.1 → innerJoinMapLoop pa pb [] tb = none)
      ∧ (pb.1 < pa.1 → innerJoinMapLoop pa pb ta [] = none)
      ∧ (innerJoinSetNext sa ([] : List K) = none)
      ∧ (innerJoinSetNext ([] : List K) sb = none)
      ∧ (ka < kb → innerJoinSetLoop ka kb [] sb = none)
      ∧ (kb < ka → innerJoinSetLoop ka kb sa [] = none)
      ∧ (innerJoinMapSetNext m ([] : List K) = none)
      ∧ (innerJoinMapSetNext ([] : List (K × V)) s = none)
      ∧ (ks < pm.1 → innerJoinMapSetLoop ks pm [] tm = none)
      ∧ (pm.1 < ks → innerJoinMapSetLoop ks pm ts [] = none)
      ∧ (outerJoinNext ([] : List (K × V1)) ([] : List (K × V2)) = Except.ok none)
      ∧ (outerJoinNext (pa :: ta) ([] : List (K × V2)) =
          Except.ok (some ((pa.1, (some pa.2, none)), ta, [])))
      ∧ (outerJoinNext ([] : List (K × V1)) (pb :: tb) =
          Except.ok (some ((pb.1, (none, some pb.2)), [], tb)))
      ∧ (outerJoinNext a b = Except.ok none → a = [] ∧ b = []) := by
  refine ⟨?_, ?_, ?_, ?_, ?_, ?_, ?_, ?_, ?_, ?_, ?_, ?_, rfl, rfl, rfl, ?_⟩
  · cases a <;> rfl
  · rfl
  · intro h
    exact innerJoinMapLoop_lt (compare_lt_iff_lt.mpr h) [] tb
  · intro h
    exact innerJoinMapLoop_gt (compare_gt_iff_gt.mpr h) ta []
  · cases sa <;> rfl
  · rfl
  · intro h
    exact innerJoinSetLoop_lt (compare_lt_iff_lt.mpr h) [] sb
  · intro h
    exact innerJoinSetLoop_gt (compare_gt_iff_gt.mpr h) sa []
  · cases m <;> rfl
  · cases s <;> rfl
  · intro h
    exact innerJoinMapSetLoop_lt (compare_lt_iff_lt.mpr h) [] tm
  · intro h
    exact innerJoinMapSetLoop_gt (compare_gt_iff_gt.mpr h) ts []
  · intro hx
    match a, b with
    | [], [] => exact ⟨rfl, rfl⟩
    | [], pb' :: tb' =>
      injection hx with h1
      exact Option.noConfusion h1
    | pa' :: ta', [] =>
      injection hx with h1
      exact Option.noConfusion h1
    | pa' :: ta', pb' :: tb' =>
      exfalso
      rcases h : compare pb'.1 pa'.1 with _ | _ | _ <;>
        simp only [outerJoinNext, outerJoinWhich, consumeNext, h, List.head?_cons,
          Bind.bind, Except.bind] at hx <;>
        (injection hx with h1; exact Option.noConfusion h1)

/-- C4 witness: the hypothesis-bearing conjuncts applied at concrete
inputs (the side still holding the greater key 3 is non-empty when the
other side is exhausted). -/
theorem claim_exhaustion_policy_witness :
    innerJoinMapLoop ((1 : Nat), (0 : Nat)) ((2 : Nat), (0 : Nat)) [] [((3 : Nat), (0 : Nat))] = none
      ∧ innerJoinMapLoop ((2 : Nat), (0 : Nat)) ((1 : Nat), (0 : Nat)) [((3 : Nat), (0 : Nat))] [] = none
      ∧ innerJoinSetLoop (1 : Nat) (2 : Nat) [] [(3 : Nat)] = none
      ∧ innerJoinSetLoop (2 : Nat) (1 : Nat) [(3 : Nat)] [] = none
      ∧ innerJoinMapSetLoop (1 : Nat) ((2 : Nat), (0 : Nat)) [] [((3 : Nat), (0 : Nat))] = none
      ∧ innerJoinMapSetLoop (2 : Nat) ((1 : Nat), (0 : Nat)) [(3 : Nat)] [] = none
      ∧ (([] : List (Nat × Nat)) = [] ∧ ([] : List (Nat × Nat)) = []) := by
  obtain ⟨-, -, c3, -, -, -, c7, -, -, -, c11, -, -, -, -, c16⟩ :=
    claim_exhaustion_policy (V := Nat) ((1 : Nat), (0 : Nat)) ((2 : Nat), (0 : Nat))
      [] [((3 : Nat), (0 : Nat))] (1 : Nat) (2 : Nat) [] [(3 : Nat)] (1 : Nat)
      ((2 : Nat), (0 : Nat)) [] [((3 : Nat), (0 : Nat))]
      ([] : List (Nat × Nat)) ([] : List (Nat × Nat)) ([] : List (Nat × Nat)) ([] : List Nat)
  obtain ⟨-, -, -, c4, -, -, -, c8, -, -, -, c12, -, -, -, -⟩ :=
    claim_exhaustion_policy (V := Nat) ((2 : Nat), (0 : Nat)) ((1 : Nat), (0 : Nat))
      [((3 : Nat), (0 : Nat))] [] (2 : Nat) (1 : Nat) [(3 : Nat)] [] (2 : Nat)
      ((1 : Nat), (0 : Nat)) [(3 : Nat)] []
      ([] : List (Nat × Nat)) ([] : List (Nat × Nat)) ([] : List (Nat × Nat)) ([] : List Nat)
  exact ⟨c3 (by decide), c4 (by decide), c7 (by decide), c8 (by decide),
    c11 (by decide), c12 (by decide), c16 rfl⟩

/-- C5: whenever a peeked slot has been observed non-empty, consuming that
side yields an element, and `OuterJoin::next` never reaches its
`expect("no value found")` panic branch: it always returns ok. -/
theorem claim_outer_join_no_panic {K V1 V2 : Type} [LinearOrder K]
    (l : List (K × V1)) (r : List (K × V2)) (p : K × V1) (t : List (K × V1)) :
    consumeNext (p :: t) = Except.ok (p, t)
      ∧ ∃ v, outerJoinNext l r = Except.ok v :=
  ⟨rfl, outerJoinNext_ok l r⟩

/-- C6: for a strictly-ascending map M and strictly-ascending set S, the
map-set join emits exactly the subsequence of M whose keys are members of
S: a filter of the map by set membership. -/
theorem claim_inner_join_map_set_filter {K V : Type} [LinearOrder K]
    (m : List (K × V)) (s : List K)
    (hm : StrictAsc (keysOf m)) (hs : StrictAsc s) :
    innerJoinMapSetRun m s = m.filter (fun p => decide (p.1 ∈ s)) :=
  innerJoinMapSetRun_eq_filter m s hm hs

/-- C6 witness: the theorem applied at M = [(1,10),(2,20)], S = [2]. -/
theorem claim_inner_join_map_set_filter_witness :
    innerJoinMapSetRun [((1 : Nat), (10 : Nat)), (2, 20)] [(2 : Nat)] =
      List.filter (fun p => decide (p.1 ∈ [(2 : Nat)])) [((1 : Nat), (10 : Nat)), (2, 20)] :=
  claim_inner_join_map_set_filter [((1 : Nat), (10 : Nat)), (2, 20)] [(2 : Nat)]
    (by decide) (by decide)

/-- C7: the set-set inner join is commutative: on strictly-ascending set
inputs, joining A with B yields the same output sequence as joining B
with A (the proof via `innerJoinSetRun_comm` needs no ordering
assumption at all). -/
theorem claim_inner_join_set_comm {K : Type} [LinearOrder K]
    (a b : List K) (ha : StrictAsc a) (hb : StrictAsc b) :
    innerJoinSetRun a b = innerJoinSetRun b a :=
  innerJoinSetRun_comm a b

/-- C7 witness: the theorem applied at A = [1,2], B = [2,3]. -/
theorem claim_inner_join_set_comm_witness :
    innerJoinSetRun [(1 : Nat), 2] [(2 : Nat), 3] =
      innerJoinSetRun [(2 : Nat), 3] [(1 : Nat), 2] :=
  claim_inner_join_set_comm [(1 : Nat), 2] [(2 : Nat), 3] (by decide) (by decide)

/-- C8: chaining two pairwise set joins computes the three-way
intersection, the chained output is again strictly ascending, and the
three-way intersection of the multiples of 2, 3 and 5 under 100 is
[30, 60, 90]. -/
theorem claim_three_way_intersection {K : Type} [LinearOrder K]
    (s1 s2 s3 : List K)
    (h1 : StrictAsc s1) (h2 : StrictAsc s2) (h3 : StrictAsc s3) :
    (innerJoinSetRun (innerJoinSetRun s1 s2) s3 =
        s1.filter (fun k => decide (k ∈ s2) && decide (k ∈ s3)))
      ∧ StrictAsc (innerJoinSetRun (innerJoinSetRun s1 s2) s3)
      ∧ innerJoinSetRun (innerJoinSetRun (multiplesUnder 2 100) (multiplesUnder 3 100))
          (multiplesUnder 5 100) = [30, 60, 90] := by
  refine ⟨?_, ?_, ?_⟩
  · rw [innerJoinSetRun_eq_filter s1 s2 h1 h2,
      innerJoinSetRun_eq_filter _ s3 (List.Pairwise.filter _ h1) h3,
      List.filter_filter]
    refine List.filter_congr ?_
    intro x _
    exact Bool.and_comm _ _
  · exact List.Pairwise.sublist (innerJoinSetRun_sublist _ _)
      (List.Pairwise.sublist (innerJoinSetRun_sublist _ _) h1)
  · simp [multiplesUnder, List.range_succ, innerJoinSetRun,
      LinearOrder.compare_eq_compareOfLessAndEq, compareOfLessAndEq]

/-- C8 witness: the theorem applied at S1 = [1,2,3], S2 = [2,3], S3 = [3]. -/
theorem claim_three_way_intersection_witness :
    (innerJoinSetRun (innerJoinSetRun [(1 : Nat), 2, 3] [(2 : Nat), 3]) [(3 : Nat)] =
        List.filter (fun k => decide (k ∈ [(2 : Nat), 3]) && decide (k ∈ [(3 : Nat)]))
          [(1 : Nat), 2, 3])
      ∧ StrictAsc (innerJoinSetRun (innerJoinSetRun [(1 : Nat), 2, 3] [(2 : Nat), 3]) [(3 : Nat)])
      ∧ innerJoinSetRun (innerJoinSetRun (multiplesUnder 2 100) (multiplesUnder 3 100))
          (multiplesUnder 5 100) = [30, 60, 90] :=
  claim_three_way_intersection [(1 : Nat), 2, 3] [(2 : Nat), 3] [(3 : Nat)]
    (by decide) (by decide) (by decide)

/-- C9: every `next` call terminates with a bounded amount of advancing
(witnessed by these total Lean functions): a successful inner-join `next`
leaves each side a strictly shorter suffix of what it was, and a
successful outer-join `next` consumes at most one element per side
(the one-slot peek) while strictly shrinking the total. -/
theorem claim_next_bounded {K V1 V2 V : Type} [LinearOrder K]
    (a : List (K × V1)) (b : List (K × V2)) (m : List (K × V)) (s s1 s2 : List K) :
    (∀ (x : K × (V1 × V2)) (a' : List (K × V1)) (b' : List (K × V2)),
        innerJoinMapNext a b = some (x, a', b') →
          a'.IsSuffix a ∧ b'.IsSuffix b ∧ a'.length < a.length ∧ b'.length < b.length)
      ∧ (∀ (x : K) (a' b' : List K),
          innerJoinSetNext s1 s2 = some (x, a', b') →
            a'.IsSuffix s1 ∧ b'.IsSuffix s2 ∧ a'.length < s1.length ∧ b'.length < s2.length)
      ∧ (∀ (x : K × V) (m' : List (K × V)) (s' : List K),
          innerJoinMapSetNext m s = some (x, m', s') →
            m'.IsSuffix m ∧ s'.IsSuffix s ∧ m'.length < m.length ∧ s'.length < s.length)
      ∧ (∀ (x : K × (Option V1 × Option V2)) (l' : List (K × V1)) (r' : List (K × V2)),
          outerJoinNext a b = Except.ok (some (x, l', r')) →
            l'.IsSuffix a ∧ r'.IsSuffix b ∧ a.length ≤ l'.length + 1 ∧
              b.length ≤ r'.length + 1 ∧ l'.length + r'.length < a.length + b.length) :=
  ⟨fun _ _ _ hx => innerJoinMapNext_state a b hx,
    fun _ _ _ hx => innerJoinSetNext_state s1 s2 hx,
    fun _ _ _ hx => innerJoinMapSetNext_state m s hx,
    fun _ _ _ hx => outerJoinNext_state a b hx⟩

/-- C9 witness: the theorem applied at concrete singleton inputs, with
each `next` equation discharged by evaluation. -/
theorem claim_next_bounded_witness :
    (([] : List (Nat × Nat)).IsSuffix [((1 : Nat), (10 : Nat))]
        ∧ ([] : List (Nat × Nat)).IsSuffix [((1 : Nat), (20 : Nat))]
        ∧ ([] : List (Nat × Nat)).length < [((1 : Nat), (10 : Nat))].length
        ∧ ([] : List (Nat × Nat)).length < [((1 : Nat), (20 : Nat))].length)
      ∧ (([] : List Nat).IsSuffix [(1 : Nat)]
        ∧ ([] : List Nat).IsSuffix [(1 : Nat)]
        ∧ ([] : List Nat).length < [(1 : Nat)].length
        ∧ ([] : List Nat).length < [(1 : Nat)].length)
      ∧ (([] : List (Nat × Nat)).IsSuffix [((1 : Nat), (30 : Nat))]
        ∧ ([] : List Nat).IsSuffix [(1 : Nat)]
        ∧ ([] : List (Nat × Nat)).length < [((1 : Nat), (30 : Nat))].length
        ∧ ([] : List Nat).length < [(1 : Nat)].length)
      ∧ (([] : List (Nat × Nat)).IsSuffix [((1 : Nat), (10 : Nat))]
        ∧ ([] : List (Nat × Nat)).IsSuffix [((1 : Nat), (20 : Nat))]
        ∧ [((1 : Nat), (10 : Nat))].length ≤ ([] : List (Nat × Nat)).length + 1
        ∧ [((1 : Nat), (20 : Nat))].length ≤ ([] : List (Nat × Nat)).length + 1
        ∧ ([] : List (Nat × Nat)).length + ([] : List (Nat × Nat)).length <
            [((1 : Nat), (10 : Nat))].length + [((1 : Nat), (20 : Nat))].length) := by
  obtain ⟨c1, c2, c3, c4⟩ :=
    claim_next_bounded [((1 : Nat), (10 : Nat))] [((1 : Nat), (20 : Nat))]
      [((1 : Nat), (30 : Nat))] [(1 : Nat)] [(1 : Nat)] [(1 : Nat)]
  refine ⟨?_, ?_, ?_, ?_⟩
  · exact c1 ((1 : Nat), ((10 : Nat), (20 : Nat))) [] []
      (innerJoinMapLoop_eq (by decide) [] [])
  · exact c2 (1 : Nat) [] [] (innerJoinSetLoop_eq (by decide) [] [])
  · exact c3 ((1 : Nat), (30 : Nat)) [] [] (innerJoinMapSetLoop_eq (by decide) [] [])
  · exact c4 ((1 : Nat), (some (10 : Nat), some (20 : Nat))) [] [] rfl

/-- C10: the two map-set join entry points build the same adaptor:
`inner_join_map` called on a set with a map argument and `inner_join_set`
called on a map with a set argument both wrap `InnerJoinMapSet` with the
map on the map side and the set on the set side, hence have identical
output. -/
theorem claim_map_set_entry_points_equiv {K V : Type} [LinearOrder K]
    (m : List (K × V)) (s : List K) :
    OrderedSetIterator.inner_join_map s m = OrderedMapIterator.inner_join_set m s
      ∧ (OrderedSetIterator.inner_join_map s m).run =
          (OrderedMapIterator.inner_join_set m s).run
      ∧ (OrderedMapIterator.inner_join_set m s).run = innerJoinMapSetRun m s :=
  ⟨rfl, rfl, rfl⟩
